import Mathlib

/-!
Verification of the streaming JSON value splitter and connection pump of the
rpc-rproxy repository (`pkg/json/json.go`, `pkg/proxy/proxy.go`).

Bytes are modelled as natural numbers (their ASCII codes).  The Go code stores
its policy counters in fixed-width unsigned integers (`uint8`, `uint16`,
`uint32`); increments of those counters are modelled with an explicit
`% 2^w` at each operation that can overflow.  Buffers are the valid region
`buffer[0:length]` of the Go slice, the slice capacity is carried separately
in `bcap`.  The byte source driving `Read` is a list of chunks; a chunk longer
than `maxRead` is consumed `maxRead` bytes at a time, matching the semantics
of an `io.Reader` handed a `maxRead`-sized destination slice.

Relevant ASCII codes: `{` = 123, `}` = 125, `[` = 91, `]` = 93, `"` = 34,
`\` = 92, space = 32, LF = 10, CR = 13, TAB = 9.
-/

/-- Parsing policy fields of `JsonStreamLexer` (Go: `maxDepth : uint8`,
`maxStringLength : uint32`, `maxArrayLength : uint16`, `maxObjectLength :
uint16`).  Stored here as `Nat`; all arithmetic on the corresponding run-time
counters applies the width-appropriate modulus. -/
structure Policy where
  maxDepth : Nat
  maxStringLength : Nat
  maxArrayLength : Nat
  maxObjectLength : Nat
  deriving DecidableEq

/-- The policy installed by `NewJsonStreamLexer`. -/
def defaultPolicy : Policy :=
  { maxDepth := 20, maxStringLength := 999999,
    maxArrayLength := 9999, maxObjectLength := 9999 }

/-- The local state of one `NextObject` parse loop: the two state bits
(`stateInString`, `stateEscaped`) and the five counters
(`objectDepth`/`arrayDepth` are `uint8`, `stringLength` is `uint32`,
`arrayLength`/`objectLength` are `uint16`). -/
structure ScanState where
  inStr : Bool
  esc : Bool
  od : Nat
  ad : Nat
  sl : Nat
  al : Nat
  ol : Nat
  deriving DecidableEq

/-- The all-zero state at the top of each `NextObject` call. -/
def scanInit : ScanState :=
  { inStr := false, esc := false, od := 0, ad := 0, sl := 0, al := 0, ol := 0 }

/-- Errors produced by `NextObject`, one constructor per `fmt.Errorf` site.
Position-carrying framing errors record the absolute buffer offset; policy
errors record the violated limit, as the Go messages do. -/
inductive LexErr where
  | unmatchedBracket (pos : Nat)
  | unexpectedChar (c : Nat) (pos : Nat)
  | objectDepthExceeded (limit : Nat)
  | arrayDepthExceeded (limit : Nat)
  | stringTooLong (limit : Nat)
  | arrayCountExceeded (limit : Nat)
  | objectCountExceeded (limit : Nat)
  deriving DecidableEq

/-- Outcome of one iteration of the `parseLoop` body on a single byte:
continue with a new state, return successfully at this byte, report an
unmatched closing bracket at this byte, or fail with a policy error. -/
inductive StepOut where
  | cont (st : ScanState)
  | done
  | bad
  | err (e : LexErr)
  deriving DecidableEq

/-- One iteration of the `parseLoop` of `NextObject` on byte `c`
(json.go, second revision, lines 400-479).  Inside a string the length
counter is bumped and checked first; an escaped byte is consumed verbatim.
Outside a string only the five structural characters do anything (the
`isStructural` fast path skips everything else). -/
def stepO (p : Policy) (st : ScanState) (c : Nat) : StepOut :=
  if st.inStr then
    let sl := (st.sl + 1) % 4294967296
    if p.maxStringLength < sl then .err (.stringTooLong p.maxStringLength)
    else if st.esc then .cont { st with sl, esc := false }
    else if c = 92 then .cont { st with sl, esc := true }
    else if c = 34 then .cont { st with inStr := false, sl := 0 }
    else .cont { st with sl }
  else if c = 34 then .cont { st with inStr := true }
  else if c = 123 then
    let od := (st.od + 1) % 256
    if p.maxDepth < od then .err (.objectDepthExceeded p.maxDepth)
    else if od = 1 ∧ st.ad = 0 then
      let ol := (st.ol + 1) % 65536
      if p.maxObjectLength < ol then .err (.objectCountExceeded p.maxObjectLength)
      else .cont { st with od, ol }
    else .cont { st with od }
  else if c = 91 then
    let ad := (st.ad + 1) % 256
    if p.maxDepth < ad then .err (.arrayDepthExceeded p.maxDepth)
    else
      let al := (st.al + 1) % 65536
      if p.maxArrayLength < al then .err (.arrayCountExceeded p.maxArrayLength)
      else .cont { st with ad, al }
  else if c = 125 then
    if st.od = 0 then .bad
    else
      let od := st.od - 1
      if od = 0 ∧ st.ad = 0 then .done else .cont { st with od }
  else if c = 93 then
    if st.ad = 0 then .bad
    else
      let ad := st.ad - 1
      if st.od = 0 ∧ ad = 0 then .done else .cont { st with ad }
  else .cont st

/-- Result of running the `parseLoop` over the remainder of the buffer:
the value closed at absolute offset `stop`, or the buffer ran out
(`more`, carrying the loop state that Go discards), or an error. -/
inductive ScanRes where
  | more (st : ScanState)
  | done (stop : Nat)
  | bad (pos : Nat)
  | fail (e : LexErr)
  deriving DecidableEq

/-- The `parseLoop` of `NextObject`: iterate `stepO` over the bytes of `l`,
where the first byte of `l` sits at absolute buffer offset `i`.
`bad pos` stands for the unmatched-closing-bracket error at offset `pos`. -/
def scanFrom (p : Policy) (st : ScanState) (l : List Nat) (i : Nat) : ScanRes :=
  match l with
  | [] => .more st
  | c :: rest =>
    match stepO p st c with
    | .cont st' => scanFrom p st' rest (i + 1)
    | .done => .done i
    | .bad => .bad i
    | .err e => .fail e

/-- Whitespace table of the second revision (`isWhitespace`):
space, LF, CR, TAB. -/
def isWs (c : Nat) : Bool :=
  c = 32 || c = 10 || c = 13 || c = 9

/-- Result of the start-of-value search at the top of `NextObject`. -/
inductive FindRes where
  | found (start : Nat)
  | exhausted
  | fail (e : LexErr)
  deriving DecidableEq

/-- The start-of-value loop of `NextObject` (lines 377-398): scan from the
cursor for a `{` or `[`; a closing bracket or any non-whitespace byte is a
framing error; reported positions are absolute buffer offsets. -/
def findStart (l : List Nat) (pos : Nat) : FindRes :=
  match l with
  | [] => .exhausted
  | c :: rest =>
    if c = 123 ∨ c = 91 then .found pos
    else if c = 125 ∨ c = 93 then .fail (.unmatchedBracket pos)
    else if isWs c then findStart rest (pos + 1)
    else .fail (.unexpectedChar c pos)

/-- `JsonStreamLexer` (second revision).  `buffer` is the valid region
`buffer[0:length]` of the Go slice (so `length = buffer.length`); `bcap`
is the capacity of the underlying array. -/
structure Lexer where
  buffer : List Nat
  bcap : Nat
  cursor : Nat
  maxRead : Nat
  policy : Policy
  deriving DecidableEq

/-- `NewJsonStreamLexer`: empty valid region over a `bufferSize`-capacity
array, cursor 0, and the default policy. -/
def NewJsonStreamLexer (bufferSize maxRead : Nat) : Lexer :=
  { buffer := [], bcap := bufferSize, cursor := 0, maxRead := maxRead,
    policy := defaultPolicy }

/-- The `(start, end, err)` triple returned by `NextObject`:
`needMore s` is `(s, -1, nil)`, `obj s e` is `(s, e, nil)` with `e ≥ s`,
and `fail` is `(0, 0, err)`. -/
inductive NextRes where
  | needMore (start : Nat)
  | obj (start stop : Nat)
  | fail (e : LexErr)
  deriving DecidableEq

/-- `NextObject`: find the start of a value from the cursor, then run the
parse loop from that opener to the end of the valid region. -/
def nextObject (lx : Lexer) : NextRes :=
  match findStart (lx.buffer.drop lx.cursor) lx.cursor with
  | .fail e => .fail e
  | .exhausted => .needMore lx.cursor
  | .found s =>
    match scanFrom lx.policy scanInit (lx.buffer.drop s) s with
    | .more _ => .needMore s
    | .done stop => .obj s stop
    | .bad j => .fail (.unmatchedBracket j)
    | .fail e => .fail e

/-- Outcome of one `Read` call: `ok n` is `(n, nil)`, `eof` is `(0, io.EOF)`.
The modelled byte source produces only data or EOF. -/
inductive ReadRes where
  | ok (n : Nat)
  | eof
  deriving DecidableEq

/-- The growth step at the top of `Read` (lines 288-302): if the remaining
capacity is below `length + maxRead`, reallocate to `length + maxRead` when
the old capacity is below that, otherwise to twice the old capacity.  The
copy preserves the valid region, modelled here by `buffer` being unchanged. -/
def lexGrow (lx : Lexer) : Lexer :=
  let bCap := lx.bcap
  let remainingCap := bCap - lx.buffer.length
  let minCap := lx.buffer.length + lx.maxRead
  if remainingCap < minCap then
    { lx with bcap := if bCap < minCap then minCap else bCap * 2 }
  else lx

/-- `Read` (lines 287-314): grow, then read up to `maxRead` bytes from the
source into the free region and extend the valid region by the bytes read.
The source is a queue of non-empty chunks; a partially consumed chunk keeps
its remainder at the front, as a real `io.Reader` would. -/
def lexRead (lx : Lexer) (src : List (List Nat)) :
    Lexer × List (List Nat) × ReadRes :=
  let lg := lexGrow lx
  match src with
  | [] => (lg, [], .eof)
  | c :: rest =>
    let n := min lg.maxRead c.length
    let lx' := { lg with buffer := lg.buffer ++ c.take n }
    let rest' := if c.drop n = [] then rest else c.drop n :: rest
    (lx', rest', .ok n)

/-- `processBuffer` (lines 485-517), synchronous-callback path, with an
explicit fuel (one unit per emitted value; `buffer.length + 1` always
suffices).  `wr buf s e` is the buffer as mutated by the callback that
received the slice `buf[s:e+1]` — the identity for a recording callback,
an in-place write of a byte at offset `e+1` for the proxy's forwarder.
Returns (emitted slices, errors passed to errCb, final lexer, complete). -/
def processBufferF (wr : List Nat → Nat → Nat → List Nat) :
    Nat → Lexer → List (List Nat) × List LexErr × Lexer × Bool
  | 0, lx => ([], [], lx, true)
  | fuel + 1, lx =>
    if lx.buffer.length = 0 then ([], [], lx, true)
    else
      match nextObject lx with
      | .fail e => ([], [e], lx, true)
      | .needMore _ => ([], [], lx, false)
      | .obj s e =>
        let val := (lx.buffer.drop s).take (e - s + 1)
        let lx' := { lx with buffer := (wr lx.buffer s e).drop (e + 1), cursor := 0 }
        let r := processBufferF wr fuel lx'
        (val :: r.1, r.2.1, r.2.2)

/-- Total number of bytes still queued in the source. -/
def totalBytes (src : List (List Nat)) : Nat := (src.map List.length).sum

/-- `DecodeAll` (lines 317-346) with an explicit iteration fuel.  A cancelled
context makes the `select` take the `Done` case, whose body is empty, so the
iteration does nothing and loops; otherwise the default case processes the
buffer when it is non-empty and the previous object was complete, reads, and
exits only on EOF (after one final drain).  `none` means the fuel ran out,
i.e. the loop performed that many iterations without returning. -/
def decodeAllF (wr : List Nat → Nat → Nat → List Nat) (cancelled : Bool) :
    Nat → Bool → Lexer → List (List Nat) →
    Option (List (List Nat) × List LexErr × Lexer)
  | 0, _, _, _ => none
  | fuel + 1, lastC, lx, src =>
    if cancelled then decodeAllF wr cancelled fuel lastC lx src
    else
      let pr := if 0 < lx.buffer.length ∧ lastC = true
                then processBufferF wr (lx.buffer.length + 1) lx
                else ([], [], lx, lastC)
      let rd := lexRead pr.2.2.1 src
      match rd.2.2 with
      | .eof =>
        let fin := processBufferF wr (rd.1.buffer.length + 1) rd.1
        some (pr.1 ++ fin.1, pr.2.1 ++ fin.2.1, fin.2.2.1)
      | .ok _ =>
        match decodeAllF wr cancelled fuel true rd.1 rd.2.1 with
        | none => none
        | some (es, errs, lxf) => some (pr.1 ++ es, pr.2.1 ++ errs, lxf)

/-- Buffer effect of a callback that only records the emission. -/
def recWr (b : List Nat) (_s _e : Nat) : List Nat := b

/-- Buffer effect of the pump's forwarder `handleMessage` (proxy.go lines
300-319): `data = append(data, '\n')` on the borrowed slice `buffer[s:e+1]`
writes the byte 10 into the underlying array at offset `e+1` whenever that
offset still lies inside it; a write at the capacity slack beyond the valid
region is never observed (`List.set` out of range is the identity). -/
def nlWr (b : List Nat) (_s e : Nat) : List Nat := b.set (e + 1) 10

/-- The byte segments `handleMessage` hands to `peer.Write`: each emitted
value followed by exactly one LF. -/
def peerWrites (emits : List (List Nat)) : List (List Nat) :=
  emits.map (fun v => v ++ [10])

/-!  Specification-side measures (§4.2 of the spec): a policy-free fold over
the bytes tracking the string state, the per-bracket-type open/close counts,
the length of the current string interior, and the total number of `[`. -/

/-- Measure state: `oo`/`oc` count `{`/`}` outside strings, `ao`/`acl` count
`[`/`]` outside strings, `cur` counts the bytes of the current string
interior since its opening quote, `arrCnt` counts every `[` outside
strings. -/
structure MeasSt where
  inStr : Bool
  esc : Bool
  oo : Nat
  oc : Nat
  ao : Nat
  acl : Nat
  cur : Nat
  arrCnt : Nat
  deriving DecidableEq

/-- The all-zero measure state. -/
def meas0 : MeasSt :=
  { inStr := false, esc := false, oo := 0, oc := 0, ao := 0, acl := 0,
    cur := 0, arrCnt := 0 }

/-- One byte of the specification fold.  Inside a string an escaped byte is
consumed verbatim and an unescaped quote closes the string; outside, the four
brackets bump their counters and a quote opens a string. -/
def measStep (m : MeasSt) (c : Nat) : MeasSt :=
  if m.inStr then
    if m.esc then { m with esc := false, cur := m.cur + 1 }
    else if c = 92 then { m with esc := true, cur := m.cur + 1 }
    else if c = 34 then { m with inStr := false, cur := 0 }
    else { m with cur := m.cur + 1 }
  else if c = 34 then { m with inStr := true, cur := 0 }
  else if c = 123 then { m with oo := m.oo + 1 }
  else if c = 91 then { m with ao := m.ao + 1, arrCnt := m.arrCnt + 1 }
  else if c = 125 then { m with oc := m.oc + 1 }
  else if c = 93 then { m with acl := m.acl + 1 }
  else m

/-- The specification fold over a byte list. -/
def measRun (m : MeasSt) (l : List Nat) : MeasSt := l.foldl measStep m

/-- Outcome of the policy-free reference scan: value closed at absolute
offset `stop`, bytes exhausted (`more`), or unmatched closing bracket. -/
inductive RawRes where
  | more (m : MeasSt)
  | close (stop : Nat)
  | bad (pos : Nat)
  deriving DecidableEq

/-- One byte of the policy-free reference scan: a closing bracket with no
open one of its kind is `bad`; a closing bracket that brings both net depths
to zero closes the value; everything else continues with the measure fold. -/
inductive RawStep where
  | cont (m : MeasSt)
  | close
  | bad
  deriving DecidableEq

/-- Single step of the reference scan (the framing algorithm of §4.2
without limits). -/
def rawStepF (m : MeasSt) (c : Nat) : RawStep :=
  if m.inStr then .cont (measStep m c)
  else if c = 125 then
    if m.oo - m.oc = 0 then .bad
    else if m.oo - m.oc = 1 ∧ m.ao - m.acl = 0 then .close
    else .cont (measStep m c)
  else if c = 93 then
    if m.ao - m.acl = 0 then .bad
    else if m.oo - m.oc = 0 ∧ m.ao - m.acl = 1 then .close
    else .cont (measStep m c)
  else .cont (measStep m c)

/-- The policy-free reference scan. -/
def rawRun (m : MeasSt) (l : List Nat) (i : Nat) : RawRes :=
  match l with
  | [] => .more m
  | c :: rest =>
    match rawStepF m c with
    | .cont m' => rawRun m' rest (i + 1)
    | .close => .close i
    | .bad => .bad i

/-- A byte list consisting only of splitter whitespace. -/
def WsOnly (w : List Nat) : Prop := ∀ c ∈ w, isWs c = true

/-- The list opens with `{` or `[`. -/
def openerHead (v : List Nat) : Prop := v.headD 0 = 123 ∨ v.headD 0 = 91

/-- `v` is one complete top-level value accepted by the splitter's own scan
under policy `p`: it opens with `{` or `[` and the parse loop started on it
returns exactly at its last byte. -/
def Accepted (p : Policy) (v : List Nat) : Prop :=
  openerHead v ∧ scanFrom p scanInit v 0 = .done (v.length - 1)

/-- `v` is one complete top-level value of the policy-free specification
scan: it opens with `{` or `[` and the reference scan closes exactly at its
last byte (§2 glossary: delimiter-balanced, strings and escapes respected). -/
def RawValue (v : List Nat) : Prop :=
  openerHead v ∧ rawRun meas0 v 0 = .close (v.length - 1)

/-- An input stream: leading whitespace `w`, then values each followed by
its trailing whitespace. -/
def stream (w : List Nat) (vws : List (List Nat × List Nat)) : List Nat :=
  w ++ (vws.map (fun q => q.1 ++ q.2)).flatten

/-- Every queued value is accepted under `p` and every gap is whitespace. -/
def GoodStream (p : Policy) (vws : List (List Nat × List Nat)) : Prop :=
  ∀ q ∈ vws, Accepted p q.1 ∧ WsOnly q.2

instance (w : List Nat) : Decidable (WsOnly w) := by
  unfold WsOnly
  infer_instance

instance (v : List Nat) : Decidable (openerHead v) := by
  unfold openerHead
  infer_instance

instance (p : Policy) (v : List Nat) : Decidable (Accepted p v) := by
  unfold Accepted
  infer_instance

instance (v : List Nat) : Decidable (RawValue v) := by
  unfold RawValue
  infer_instance

instance (p : Policy) (vws : List (List Nat × List Nat)) :
    Decidable (GoodStream p vws) := by
  unfold GoodStream
  infer_instance

/-! ### Basic lemmas about the parse loop -/

/-- Shift the absolute positions in a scan result by `k`. -/
def ScanRes.shift : ScanRes → Nat → ScanRes
  | .more st, _ => .more st
  | .done j, k => .done (j + k)
  | .bad j, k => .bad (j + k)
  | .fail e, _ => .fail e

theorem scanFrom_append (p : Policy) (st : ScanState) (a b : List Nat) (i : Nat) :
    scanFrom p st (a ++ b) i =
      match scanFrom p st a i with
      | .more st' => scanFrom p st' b (i + a.length)
      | r => r := by
  induction a generalizing st i with
  | nil => simp [scanFrom]
  | cons c rest ih =>
    show scanFrom p st (c :: (rest ++ b)) i = _
    simp only [scanFrom]
    cases h : stepO p st c with
    | cont st' =>
      dsimp only
      rw [ih st' (i + 1)]
      cases hs : scanFrom p st' rest (i + 1) with
      | more st'' => simp only [List.length_cons]; congr 1; omega
      | done j => rfl
      | bad j => rfl
      | fail e => rfl
    | done => rfl
    | bad => rfl
    | err e => rfl

theorem ScanRes.shift_shift (r : ScanRes) (a b : Nat) :
    (r.shift a).shift b = r.shift (a + b) := by
  cases r <;> simp [ScanRes.shift] <;> omega

theorem scanFrom_shift (p : Policy) (st : ScanState) (l : List Nat) (i : Nat) :
    scanFrom p st l i = (scanFrom p st l 0).shift i := by
  induction l generalizing st i with
  | nil => rfl
  | cons c rest ih =>
    simp only [scanFrom]
    cases h : stepO p st c with
    | cont st' =>
      dsimp only
      rw [ih st' (i + 1), ih st' 1, ScanRes.shift_shift]
      congr 1
      omega
    | done => simp [ScanRes.shift]
    | bad => simp [ScanRes.shift]
    | err e => simp [ScanRes.shift]

theorem scanFrom_done_lt (p : Policy) :
    ∀ (l : List Nat) (st : ScanState) (i j : Nat),
      scanFrom p st l i = .done j → i ≤ j ∧ j < i + l.length := by
  intro l
  induction l with
  | nil => intro st i j h; simp [scanFrom] at h
  | cons c rest ih =>
    intro st i j h
    simp only [scanFrom] at h
    cases hs : stepO p st c with
    | cont st' =>
      rw [hs] at h
      have := ih st' (i + 1) j h
      simp only [List.length_cons]
      omega
    | done => rw [hs] at h; cases h; simp
    | bad => rw [hs] at h; cases h
    | err e => rw [hs] at h; cases h

/-- A strict front part of an accepted value leaves the parse loop running. -/
theorem scanFrom_front (p : Policy) (st : ScanState) (a b : List Nat) (hb : b ≠ [])
    (hacc : scanFrom p st (a ++ b) 0 = .done ((a ++ b).length - 1)) :
    ∃ st', scanFrom p st a 0 = .more st' := by
  rw [scanFrom_append] at hacc
  cases hs : scanFrom p st a 0 with
  | more st' => exact ⟨st', rfl⟩
  | done j =>
    rw [hs] at hacc
    cases hacc
    have hj := scanFrom_done_lt p a st 0 _ hs
    have hbl : 1 ≤ b.length := by
      cases b with
      | nil => exact absurd rfl hb
      | cons x t => simp
    simp only [List.length_append] at hj
    omega
  | bad j => rw [hs] at hacc; cases hacc
  | fail e => rw [hs] at hacc; cases hacc

/-- An accepted value followed by anything closes exactly at its last byte. -/
theorem scanFrom_value_append (p : Policy) (v rest : List Nat) (i : Nat)
    (hacc : scanFrom p scanInit v 0 = .done (v.length - 1)) :
    scanFrom p scanInit (v ++ rest) i = .done (i + (v.length - 1)) := by
  rw [scanFrom_append, scanFrom_shift, hacc]
  simp [ScanRes.shift, Nat.add_comm]

/-! ### Basic lemmas about the start-of-value search -/

theorem findStart_ws (w : List Nat) (hw : WsOnly w) (pos : Nat) :
    findStart w pos = .exhausted := by
  induction w generalizing pos with
  | nil => rfl
  | cons a t ih =>
    have ha : isWs a = true := hw a (by simp)
    have ht : WsOnly t := fun c hc => hw c (by simp [hc])
    have h1 : ¬(a = 123 ∨ a = 91) := by
      simp only [isWs, Bool.or_eq_true, decide_eq_true_eq] at ha
      rcases ha with h | h | h | h <;> omega
    have h2 : ¬(a = 125 ∨ a = 93) := by
      simp only [isWs, Bool.or_eq_true, decide_eq_true_eq] at ha
      rcases ha with h | h | h | h <;> omega
    simp [findStart, h1, h2, ha, ih ht]

theorem findStart_ws_append (w : List Nat) (hw : WsOnly w) (c : Nat) (rest : List Nat)
    (hc : c = 123 ∨ c = 91) (pos : Nat) :
    findStart (w ++ c :: rest) pos = .found (pos + w.length) := by
  induction w generalizing pos with
  | nil => simp [findStart, hc]
  | cons a t ih =>
    have ha : isWs a = true := hw a (by simp)
    have ht : WsOnly t := fun x hx => hw x (by simp [hx])
    have h1 : ¬(a = 123 ∨ a = 91) := by
      simp only [isWs, Bool.or_eq_true, decide_eq_true_eq] at ha
      rcases ha with h | h | h | h <;> omega
    have h2 : ¬(a = 125 ∨ a = 93) := by
      simp only [isWs, Bool.or_eq_true, decide_eq_true_eq] at ha
      rcases ha with h | h | h | h <;> omega
    show findStart (a :: (t ++ c :: rest)) pos = _
    simp only [findStart, h1, h2, ha, if_false, if_true]
    rw [ih ht (pos + 1)]
    simp only [List.length_cons]
    congr 1
    omega

/-! ### `nextObject` on stream-shaped buffers -/

theorem accepted_ne_nil {p : Policy} {v : List Nat} (h : Accepted p v) : v ≠ [] := by
  rcases h with ⟨ho, -⟩
  intro hv
  subst hv
  simp [openerHead, List.headD] at ho

theorem accepted_length_pos {p : Policy} {v : List Nat} (h : Accepted p v) :
    1 ≤ v.length := by
  cases hv : v with
  | nil => exact absurd hv (accepted_ne_nil h)
  | cons c t => simp

/-- With the cursor at 0 and a buffer of whitespace, a complete accepted
value and arbitrary trailing bytes, `NextObject` returns exactly the bounds
of the value. -/
theorem nextObject_ws_value (base : Lexer) (w v rest : List Nat)
    (hw : WsOnly w) (hacc : Accepted base.policy v)
    (hbuf : base.buffer = w ++ v ++ rest) (hcur : base.cursor = 0) :
    nextObject base = .obj w.length (w.length + (v.length - 1)) := by
  obtain ⟨c, t, hv⟩ : ∃ c t, v = c :: t := by
    cases hvv : v with
    | nil => exact absurd hvv (accepted_ne_nil hacc)
    | cons c t => exact ⟨c, t, rfl⟩
  rcases hacc with ⟨ho, hscan⟩
  have hc : c = 123 ∨ c = 91 := by
    simpa [hv, openerHead, List.headD] using ho
  unfold nextObject
  rw [hcur, List.drop_zero, hbuf]
  have hfa : w ++ v ++ rest = w ++ c :: (t ++ rest) := by
    simp [hv]
  rw [hfa, findStart_ws_append w hw c (t ++ rest) hc 0]
  dsimp only
  have hdrop : (w ++ c :: (t ++ rest)).drop (0 + w.length) = v ++ rest := by
    simp [hv, List.drop_left]
  rw [hdrop, scanFrom_value_append base.policy v rest (0 + w.length) hscan]
  simp

/-- With the cursor at 0 and a whitespace-only buffer, `NextObject` reports
that it needs more data, resuming at offset 0. -/
theorem nextObject_ws_only (base : Lexer) (hw : WsOnly base.buffer)
    (hcur : base.cursor = 0) :
    nextObject base = .needMore 0 := by
  unfold nextObject
  rw [hcur, List.drop_zero, findStart_ws base.buffer hw 0]

/-- With the cursor at 0 and a buffer holding whitespace plus a proper
non-empty front part of an accepted value, `NextObject` reports that it
needs more data. -/
theorem nextObject_ws_front (base : Lexer) (w a b v : List Nat)
    (hw : WsOnly w) (hacc : Accepted base.policy v)
    (hab : a ++ b = v) (ha : a ≠ []) (hb : b ≠ [])
    (hbuf : base.buffer = w ++ a) (hcur : base.cursor = 0) :
    nextObject base = .needMore w.length := by
  rcases hacc with ⟨ho, hscan⟩
  obtain ⟨c, t, hA⟩ : ∃ c t, a = c :: t := by
    cases a with
    | nil => exact absurd rfl ha
    | cons c t => exact ⟨c, t, rfl⟩
  have hc : c = 123 ∨ c = 91 := by
    have hcv : v.headD 0 = c := by rw [← hab, hA]; rfl
    rcases ho with h | h <;> rw [hcv] at h <;> [exact Or.inl h; exact Or.inr h]
  unfold nextObject
  rw [hcur, List.drop_zero, hbuf, hA, findStart_ws_append w hw c t hc 0]
  dsimp only
  have hdrop : (w ++ c :: t).drop (0 + w.length) = a := by
    rw [hA]
    simp [List.drop_left]
  rw [hdrop]
  have hv : scanFrom base.policy scanInit (a ++ b) 0 = .done ((a ++ b).length - 1) := by
    rw [hab]; exact hscan
  obtain ⟨st', hst'⟩ := scanFrom_front base.policy scanInit a b hb hv
  rw [scanFrom_shift, hst']
  simp [ScanRes.shift]

/-! ### Controlled unfolding and fuel irrelevance for `processBuffer` -/

theorem processBufferF_succ (wr : List Nat → Nat → Nat → List Nat)
    (fuel : Nat) (lx : Lexer) :
    processBufferF wr (fuel + 1) lx =
      if lx.buffer.length = 0 then ([], [], lx, true)
      else
        match nextObject lx with
        | .fail e => ([], [e], lx, true)
        | .needMore _ => ([], [], lx, false)
        | .obj s e =>
          ((lx.buffer.drop s).take (e - s + 1) ::
             (processBufferF wr fuel
               { lx with buffer := (wr lx.buffer s e).drop (e + 1), cursor := 0 }).1,
           (processBufferF wr fuel
               { lx with buffer := (wr lx.buffer s e).drop (e + 1), cursor := 0 }).2.1,
           (processBufferF wr fuel
               { lx with buffer := (wr lx.buffer s e).drop (e + 1), cursor := 0 }).2.2) := by
  rfl

theorem processBufferF_fuel (wr : List Nat → Nat → Nat → List Nat)
    (hwr : ∀ b s e, (wr b s e).length = b.length) :
    ∀ f1 f2 lx, lx.buffer.length < f1 → lx.buffer.length < f2 →
      processBufferF wr f1 lx = processBufferF wr f2 lx := by
  intro f1
  induction f1 with
  | zero => intro f2 lx h1 _; omega
  | succ n ih =>
    intro f2 lx h1 h2
    match f2, h2 with
    | m + 1, h2 =>
      rw [processBufferF_succ, processBufferF_succ]
      by_cases hb : lx.buffer.length = 0
      · simp [hb]
      · simp only [hb, if_false]
        cases hno : nextObject lx with
        | needMore s => rfl
        | fail e => rfl
        | obj s e =>
          have hlen : ((wr lx.buffer s e).drop (e + 1)).length < lx.buffer.length := by
            simp only [List.length_drop, hwr]
            omega
          have hn : ((wr lx.buffer s e).drop (e + 1)).length < n := by omega
          have hm : ((wr lx.buffer s e).drop (e + 1)).length < m := by omega
          dsimp only
          rw [ih m { lx with buffer := (wr lx.buffer s e).drop (e + 1), cursor := 0 } hn hm]

/-! ### `processBuffer` on a front part of a well-formed stream -/

theorem stream_nil (w : List Nat) : stream w [] = w := by
  simp [stream]

theorem stream_cons (w v w2 : List Nat) (rest : List (List Nat × List Nat)) :
    stream w ((v, w2) :: rest) = w ++ (v ++ stream w2 rest) := by
  simp [stream, List.append_assoc]

theorem wsOnly_of_front {B t w : List Nat} (h : B ++ t = w) (hw : WsOnly w) :
    WsOnly B := by
  intro c hc
  exact hw c (h ▸ List.mem_append_left t hc)

theorem goodStream_head {p : Policy} {v w2 : List Nat}
    {rest : List (List Nat × List Nat)} (h : GoodStream p ((v, w2) :: rest)) :
    Accepted p v ∧ WsOnly w2 :=
  h (v, w2) (List.mem_cons_self _ _)

theorem goodStream_tail {p : Policy} {q : List Nat × List Nat}
    {rest : List (List Nat × List Nat)} (h : GoodStream p (q :: rest)) :
    GoodStream p rest :=
  fun r hr => h r (List.mem_cons_of_mem q hr)

theorem recWr_length (b : List Nat) (s e : Nat) : (recWr b s e).length = b.length :=
  rfl

/-- Running `processBuffer` with a recording callback on a buffer that is a
front part of a well-formed stream emits exactly the values wholly contained
in the buffer, reports no error, and leaves a buffer holding no complete
value. -/
theorem processBuffer_stream (base : Lexer) :
    ∀ n : Nat, ∀ B : List Nat, B.length < n →
    ∀ (vws : List (List Nat × List Nat)) (w F : List Nat),
      WsOnly w → GoodStream base.policy vws → B ++ F = stream w vws →
      ∃ (j : Nat) (w' B' : List Nat),
        j ≤ vws.length ∧
        processBufferF recWr (B.length + 1) { base with buffer := B, cursor := 0 } =
          ((vws.take j).map Prod.fst, [],
           { base with buffer := B', cursor := 0 }, B'.isEmpty) ∧
        WsOnly w' ∧ GoodStream base.policy (vws.drop j) ∧
        B' ++ F = stream w' (vws.drop j) ∧
        ((∃ t, B' ++ t = w') ∨
         (∃ v w2 rest a b, vws.drop j = (v, w2) :: rest ∧ B' = w' ++ a ∧
           a ≠ [] ∧ b ≠ [] ∧ a ++ b = v)) := by
  intro n
  induction n with
  | zero => intro B h; omega
  | succ n ih =>
    intro B hB vws w F hw hgood heq
    by_cases hle : B.length ≤ w.length
    · -- the buffer is a front part of the leading whitespace
      obtain ⟨X, hX⟩ : ∃ X, stream w vws = w ++ X := by
        cases vws with
        | nil => exact ⟨[], by simp [stream_nil]⟩
        | cons q rest =>
          obtain ⟨v, w2⟩ := q
          exact ⟨v ++ stream w2 rest, stream_cons w v w2 rest⟩
      have h1 : (w ++ X).take B.length = B := by
        rw [← hX, ← heq]
        exact List.take_left B F
      have h2 : (w ++ X).take B.length = w.take B.length :=
        List.take_append_of_le_length hle
      have hBw : w.take B.length = B := by rw [← h2, h1]
      have hBfront : B ++ w.drop B.length = w := by
        have h3 := List.take_append_drop B.length w
        rw [hBw] at h3
        exact h3
      have hwB : WsOnly B := wsOnly_of_front hBfront hw
      refine ⟨0, w, B, Nat.zero_le _, ?_, hw, by simpa using hgood, by simpa using heq,
        Or.inl ⟨w.drop B.length, hBfront⟩⟩
      by_cases hBnil : B = []
      · subst hBnil
        simp [processBufferF]
      · rw [processBufferF_succ]
        have hlen0 : ¬ (({ base with buffer := B, cursor := 0 } : Lexer).buffer.length = 0) := by
          simpa using fun h => hBnil (List.eq_nil_of_length_eq_zero h)
        rw [if_neg hlen0]
        rw [nextObject_ws_only { base with buffer := B, cursor := 0 } hwB rfl]
        have hfalse : B.isEmpty = false := by
          cases B with
          | nil => exact absurd rfl hBnil
          | cons c t => rfl
        simp [hfalse]
    · -- the buffer reaches into the first value
      push_neg at hle
      cases vws with
      | nil =>
        exfalso
        rw [stream_nil] at heq
        have hlen := congrArg List.length heq
        simp at hlen
        omega
      | cons q rest =>
        obtain ⟨v, w2⟩ := q
        obtain ⟨haccv, hw2⟩ := goodStream_head hgood
        have hvpos : 1 ≤ v.length := accepted_length_pos haccv
        have heq' : B ++ F = w ++ (v ++ stream w2 rest) := by
          rw [heq, stream_cons]
        have heqL : B ++ F = (w ++ v) ++ stream w2 rest := by
          rw [heq', List.append_assoc]
        by_cases hfull : w.length + v.length ≤ B.length
        · -- the whole first value is in the buffer: one emission, recurse
          have h1 : (B ++ F).take (w.length + v.length) = w ++ v := by
            rw [heqL]
            have h0 := List.take_left (w ++ v) (stream w2 rest)
            rwa [List.length_append] at h0
          have h2 : (B ++ F).take (w.length + v.length) = B.take (w.length + v.length) :=
            List.take_append_of_le_length hfull
          have hwv : B.take (w.length + v.length) = w ++ v := by rw [← h2, h1]
          have hBsplit : B = (w ++ v) ++ B.drop (w.length + v.length) := by
            have h3 := List.take_append_drop (w.length + v.length) B
            rw [hwv] at h3
            exact h3.symm
          set B2 := B.drop (w.length + v.length) with hB2def
          have hB2F : B2 ++ F = stream w2 rest := by
            have h4 : (w ++ v) ++ (B2 ++ F) = (w ++ v) ++ stream w2 rest := by
              rw [← List.append_assoc, ← hBsplit, heqL]
            exact List.append_cancel_left h4
          have hB2len : B2.length < B.length := by
            rw [hB2def]
            simp only [List.length_drop]
            omega
          obtain ⟨j2, w'', B'', hj2, hpb2, hw'', hgood2, hinv2, hdisj2⟩ :=
            ih B2 (by omega) rest w2 F hw2 (goodStream_tail hgood) hB2F
          have hno : nextObject { base with buffer := B, cursor := 0 } =
              .obj w.length (w.length + (v.length - 1)) := by
            refine nextObject_ws_value _ w v B2 hw haccv ?_ rfl
            show B = w ++ v ++ B2
            rw [hBsplit, List.append_assoc]
          have hBpos : B.length ≠ 0 := by omega
          rw [processBufferF_succ]
          rw [if_neg (by simpa using hBpos), hno]
          dsimp only
          have hval : (B.drop w.length).take (w.length + (v.length - 1) - w.length + 1) = v := by
            have hd : B.drop w.length = v ++ B2 := by
              have h5 : B = w ++ (v ++ B2) := by rw [hBsplit, List.append_assoc]
              rw [h5]
              exact List.drop_left w (v ++ B2)
            rw [hd]
            have h6 : w.length + (v.length - 1) - w.length + 1 = v.length := by omega
            rw [h6]
            exact List.take_left v B2
          have hrest : (recWr B w.length (w.length + (v.length - 1))).drop
              (w.length + (v.length - 1) + 1) = B2 := by
            show B.drop (w.length + (v.length - 1) + 1) = B2
            have h7 : w.length + (v.length - 1) + 1 = (w ++ v).length := by
              simp only [List.length_append]
              omega
            rw [h7, hBsplit]
            exact List.drop_left (w ++ v) B2
          rw [hval, hrest]
          have hfuel : processBufferF recWr B.length
                { base with buffer := B2, cursor := 0 } =
              processBufferF recWr (B2.length + 1)
                { base with buffer := B2, cursor := 0 } :=
            processBufferF_fuel recWr recWr_length _ _ _ (by simpa using hB2len)
              (by simp)
          rw [hfuel, hpb2]
          refine ⟨j2 + 1, w'', B'', by simpa using hj2, ?_, hw'', ?_, ?_, ?_⟩
          · simp [List.take_succ_cons]
          · simpa using hgood2
          · simpa using hinv2
          · simpa using hdisj2
        · -- only a proper front part of the first value is in the buffer
          push_neg at hfull
          have h1 : (B ++ F).take w.length = w := by
            rw [heq']
            exact List.take_left w (v ++ stream w2 rest)
          have h2 : (B ++ F).take w.length = B.take w.length :=
            List.take_append_of_le_length (by omega)
          have hwB : B.take w.length = w := by rw [← h2, h1]
          have hBsplit : B = w ++ B.drop w.length := by
            have h3 := List.take_append_drop w.length B
            rw [hwB] at h3
            exact h3.symm
          set a := B.drop w.length with hadef
          have halen : a.length = B.length - w.length := by
            rw [hadef]
            simp
          have hane : a ≠ [] := by
            intro h
            rw [h] at halen
            simp at halen
            omega
          have haF : a ++ F = v ++ stream w2 rest := by
            have h4 : w ++ (a ++ F) = w ++ (v ++ stream w2 rest) := by
              rw [← List.append_assoc, ← hBsplit, heq']
            exact List.append_cancel_left h4
          have haltv : a.length < v.length := by omega
          have hav : v.take a.length = a := by
            have h5 : (a ++ F).take a.length = a := List.take_left a F
            rw [haF] at h5
            rw [List.take_append_of_le_length (Nat.le_of_lt haltv)] at h5
            exact h5
          have hab : a ++ v.drop a.length = v := by
            have h6 := List.take_append_drop a.length v
            rw [hav] at h6
            exact h6
          have hbne : v.drop a.length ≠ [] := by
            intro h
            have h7 := congrArg List.length h
            simp at h7
            omega
          have hno : nextObject { base with buffer := B, cursor := 0 } =
              .needMore w.length :=
            nextObject_ws_front _ w a (v.drop a.length) v hw haccv hab hane hbne
              (by simpa using hBsplit) rfl
          have hBpos : B.length ≠ 0 := by omega
          refine ⟨0, w, B, Nat.zero_le _, ?_, hw, by simpa using hgood,
            by simpa using heq, Or.inr ⟨v, w2, rest, a, v.drop a.length, by simp,
              hBsplit, hane, hbne, hab⟩⟩
          rw [processBufferF_succ]
          rw [if_neg (by simpa using hBpos), hno]
          have hfalse : B.isEmpty = false := by
            cases hBc : B with
            | nil => rw [hBc] at hBpos; simp at hBpos
            | cons c t => rfl
          simp [hfalse]

/-! ### The `DecodeAll` loop on a chunked well-formed stream -/

theorem lexGrow_buffer (lx : Lexer) : (lexGrow lx).buffer = lx.buffer := by
  unfold lexGrow
  dsimp only
  split <;> rfl

theorem lexGrow_cursor (lx : Lexer) : (lexGrow lx).cursor = lx.cursor := by
  unfold lexGrow
  dsimp only
  split <;> rfl

theorem lexGrow_maxRead (lx : Lexer) : (lexGrow lx).maxRead = lx.maxRead := by
  unfold lexGrow
  dsimp only
  split <;> rfl

theorem lexGrow_policy (lx : Lexer) : (lexGrow lx).policy = lx.policy := by
  unfold lexGrow
  dsimp only
  split <;> rfl

theorem lexRead_nil (lx : Lexer) : lexRead lx [] = (lexGrow lx, [], .eof) := rfl

theorem lexRead_cons (lx : Lexer) (c : List Nat) (cs : List (List Nat)) :
    lexRead lx (c :: cs) =
      ({ lexGrow lx with
           buffer := (lexGrow lx).buffer ++ c.take (min (lexGrow lx).maxRead c.length) },
       if c.drop (min (lexGrow lx).maxRead c.length) = [] then cs
       else c.drop (min (lexGrow lx).maxRead c.length) :: cs,
       .ok (min (lexGrow lx).maxRead c.length)) := rfl

theorem lexer_eta (lx : Lexer) (h : lx.cursor = 0) :
    ({ lx with buffer := lx.buffer, cursor := 0 } : Lexer) = lx := by
  cases lx with
  | mk b bc cu mr po =>
    simp only at h
    rw [h]

theorem lexer_eta' (lx : Lexer) (B : List Nat) (hb : lx.buffer = B)
    (h : lx.cursor = 0) :
    ({ lx with buffer := B, cursor := 0 } : Lexer) = lx := by
  cases lx with
  | mk b bc cu mr po =>
    simp only at hb h
    rw [hb, h]

theorem totalBytes_cons (c : List Nat) (cs : List (List Nat)) :
    totalBytes (c :: cs) = c.length + totalBytes cs := by
  simp [totalBytes]

theorem decodeAllF_step (wr : List Nat → Nat → Nat → List Nat)
    (fuel : Nat) (lastC : Bool) (lx : Lexer) (src : List (List Nat)) :
    decodeAllF wr false (fuel + 1) lastC lx src =
      (let pr := if 0 < lx.buffer.length ∧ lastC = true
                 then processBufferF wr (lx.buffer.length + 1) lx
                 else ([], [], lx, lastC)
       let rd := lexRead pr.2.2.1 src
       match rd.2.2 with
       | .eof =>
         let fin := processBufferF wr (rd.1.buffer.length + 1) rd.1
         some (pr.1 ++ fin.1, pr.2.1 ++ fin.2.1, fin.2.2.1)
       | .ok _ =>
         match decodeAllF wr false fuel true rd.1 rd.2.1 with
         | none => none
         | some (es, errs, lxf) => some (pr.1 ++ es, pr.2.1 ++ errs, lxf)) := by
  rfl

/-- Driving `DecodeAll` with a recording callback over any chunking of a
well-formed stream emits exactly its values in order and reports no error. -/
theorem decodeAll_stream_aux (p : Policy) :
    ∀ fuel : Nat, ∀ (src : List (List Nat)) (lx : Lexer) (w : List Nat)
      (vws : List (List Nat × List Nat)),
      lx.policy = p → 1 ≤ lx.maxRead → lx.cursor = 0 →
      totalBytes src < fuel →
      (∀ c ∈ src, c ≠ []) →
      WsOnly w → GoodStream p vws →
      lx.buffer ++ src.flatten = stream w vws →
      ∃ lxf, decodeAllF recWr false fuel true lx src =
        some (vws.map Prod.fst, [], lxf) := by
  intro fuel
  induction fuel with
  | zero => intro src lx w vws _ _ _ h; omega
  | succ n ih =>
    intro src lx w vws hpol hmr hcur hfuel hsrc hw hgood heq
    obtain ⟨j, w', B', hj, hpb, hw', hgood', hinv, hdisj⟩ :=
      processBuffer_stream lx (lx.buffer.length + 1) lx.buffer (by omega)
        vws w src.flatten hw (by rw [hpol]; exact hgood) heq
    rw [lexer_eta lx hcur] at hpb
    have hif : (if 0 < lx.buffer.length ∧ (true : Bool) = true
                then processBufferF recWr (lx.buffer.length + 1) lx
                else ([], [], lx, true)) =
        processBufferF recWr (lx.buffer.length + 1) lx := by
      by_cases hbe : 0 < lx.buffer.length
      · simp [hbe]
      · rw [if_neg (by simp [hbe])]
        rw [processBufferF_succ, if_pos (show lx.buffer.length = 0 by omega)]
    rw [decodeAllF_step]
    dsimp only
    rw [hif, hpb]
    dsimp only
    cases src with
    | nil =>
      rw [lexRead_nil]
      dsimp only
      have hB'F : B' ++ ([] : List Nat) = stream w' (vws.drop j) := by
        simpa using hinv
      obtain ⟨j2, w2, B2, hj2, hpb2, hw2', hgood2, hinv2, hdisj2⟩ :=
        processBuffer_stream (lexGrow { lx with buffer := B', cursor := 0 })
          (B'.length + 1) B' (by omega) (vws.drop j) w' [] hw'
          (by rw [lexGrow_policy]; simpa [hpol] using hgood') hB'F
      have hgb : (lexGrow { lx with buffer := B', cursor := 0 }).buffer = B' := by
        rw [lexGrow_buffer]
      have hgc : (lexGrow { lx with buffer := B', cursor := 0 }).cursor = 0 := by
        rw [lexGrow_cursor]
      rw [lexer_eta' _ B' hgb hgc] at hpb2
      rw [hgb, hpb2]
      have hforce : (vws.drop j).drop j2 = [] := by
        rcases hdisj2 with ⟨t, ht⟩ | ⟨v, wv, rest, a, b, hd, hBa, hane, hbne, habv⟩
        · cases hdd : (vws.drop j).drop j2 with
          | nil => rfl
          | cons q r =>
            exfalso
            obtain ⟨v, wv⟩ := q
            rw [hdd] at hinv2
            rw [stream_cons] at hinv2
            have hvpos : 1 ≤ v.length := by
              refine accepted_length_pos (p := (lexGrow { lx with buffer := B', cursor := 0 }).policy) ?_
              exact (goodStream_head (hdd ▸ hgood2)).1
            have hl1 := congrArg List.length ht
            have hl2 := congrArg List.length hinv2
            simp at hl1 hl2
            omega
        · exfalso
          rw [hd, stream_cons] at hinv2
          have hb1 : 1 ≤ b.length := by
            cases b with
            | nil => exact absurd rfl hbne
            | cons x xs => simp
          have hl1 := congrArg List.length hinv2
          have hl2 := congrArg List.length habv
          rw [hBa] at hl1
          simp at hl1 hl2
          omega
      have htake : (vws.drop j).take j2 = vws.drop j := by
        have hlen : (vws.drop j).length ≤ j2 := List.drop_eq_nil_iff.mp hforce
        exact List.take_of_length_le hlen
      rw [htake]
      have hmap : (vws.take j).map Prod.fst ++ (vws.drop j).map Prod.fst =
          vws.map Prod.fst := by
        rw [← List.map_append, List.take_append_drop]
      rw [hmap]
      exact ⟨_, rfl⟩
    | cons c cs =>
      rw [lexRead_cons]
      dsimp only
      set nn := min (lexGrow { lx with buffer := B', cursor := 0 }).maxRead c.length with hnn
      have hmrg : (lexGrow { lx with buffer := B', cursor := 0 }).maxRead = lx.maxRead := by
        rw [lexGrow_maxRead]
      have hcne : c ≠ [] := hsrc c (by simp)
      have hclen : 1 ≤ c.length := by
        cases c with
        | nil => exact absurd rfl hcne
        | cons x xs => simp
      have hnn1 : 1 ≤ nn := by
        rw [hnn, hmrg]
        exact le_min hmr hclen
      have hnnc : nn ≤ c.length := by
        rw [hnn]
        exact min_le_right _ _
      set rest' := if c.drop nn = [] then cs else c.drop nn :: cs with hrest'
      have hflat : rest'.flatten = c.drop nn ++ cs.flatten := by
        rw [hrest']
        split
        · rename_i hdn
          rw [hdn]
          simp
        · simp
      have htotal : totalBytes rest' = (c.length - nn) + totalBytes cs := by
        rw [hrest']
        split
        · rename_i hdn
          have : c.length ≤ nn := by
            have := congrArg List.length hdn
            simp at this
            omega
          have hcn : c.length - nn = 0 := by omega
          rw [hcn]
          simp
        · rw [totalBytes_cons]
          simp
      have hsrc' : ∀ d ∈ rest', d ≠ [] := by
        intro d hd
        rw [hrest'] at hd
        by_cases hdn : c.drop nn = []
        · rw [if_pos hdn] at hd
          exact hsrc d (List.mem_cons_of_mem c hd)
        · rw [if_neg hdn] at hd
          cases hd with
          | head => exact hdn
          | tail _ hmem => exact hsrc d (List.mem_cons_of_mem c hmem)
      have hbuf' : (lexGrow { lx with buffer := B', cursor := 0 }).buffer ++ c.take nn =
          B' ++ c.take nn := by
        rw [lexGrow_buffer]
      have hstream' :
          (B' ++ c.take nn) ++ rest'.flatten = stream w' (vws.drop j) := by
        rw [hflat, List.append_assoc, ← List.append_assoc (c.take nn),
          List.take_append_drop]
        have hFc : (c :: cs).flatten = c ++ cs.flatten := by simp
        rw [← hFc]
        exact hinv
      obtain ⟨lxf, hrec⟩ := ih rest'
        { lexGrow { lx with buffer := B', cursor := 0 } with
            buffer := (lexGrow { lx with buffer := B', cursor := 0 }).buffer ++ c.take nn }
        w' (vws.drop j)
        (by rw [show ({ lexGrow { lx with buffer := B', cursor := 0 } with
              buffer := (lexGrow { lx with buffer := B', cursor := 0 }).buffer ++ c.take nn } : Lexer).policy =
              (lexGrow { lx with buffer := B', cursor := 0 }).policy from rfl,
            lexGrow_policy]; exact hpol)
        (by rw [show ({ lexGrow { lx with buffer := B', cursor := 0 } with
              buffer := (lexGrow { lx with buffer := B', cursor := 0 }).buffer ++ c.take nn } : Lexer).maxRead =
              (lexGrow { lx with buffer := B', cursor := 0 }).maxRead from rfl,
            lexGrow_maxRead]; exact hmr)
        (by rw [show ({ lexGrow { lx with buffer := B', cursor := 0 } with
              buffer := (lexGrow { lx with buffer := B', cursor := 0 }).buffer ++ c.take nn } : Lexer).cursor =
              (lexGrow { lx with buffer := B', cursor := 0 }).cursor from rfl,
            lexGrow_cursor])
        (by
          rw [htotal]
          rw [totalBytes_cons] at hfuel
          omega)
        hsrc' hw' (hpol ▸ hgood')
        (by
          rw [show ({ lexGrow { lx with buffer := B', cursor := 0 } with
              buffer := (lexGrow { lx with buffer := B', cursor := 0 }).buffer ++ c.take nn } : Lexer).buffer =
              (lexGrow { lx with buffer := B', cursor := 0 }).buffer ++ c.take nn from rfl]
          rw [hbuf']
          exact hstream')
      rw [hrec]
      dsimp only
      have hmap : (vws.take j).map Prod.fst ++ (vws.drop j).map Prod.fst =
          vws.map Prod.fst := by
        rw [← List.map_append, List.take_append_drop]
      rw [hmap]
      exact ⟨lxf, rfl⟩

/-! ### Concrete byte inputs used by the claims -/

/-- `{"a":1}` -/
def c1v1W : List Nat := [123, 34, 97, 34, 58, 49, 125]

/-- `[2]` -/
def c1v2W : List Nat := [91, 50, 93]

/-- The stream `{"a":1} [2]` cut into three chunks at byte offsets 1 and 9. -/
def c1chunksW : List (List Nat) := [[123], [34, 97, 34, 58, 49, 125, 32, 91], [50, 93]]

/-- A well-formed JSON value of nesting depth 21: `[[[…[1]…]]]`. -/
def c1deep : List Nat := List.replicate 21 91 ++ [49] ++ List.replicate 21 93

/-- `{"key1":"value1"}{"key2":"value2"}` — 34 bytes, two back-to-back objects
at byte ranges 0..=16 and 17..=33. -/
def c9S : List Nat :=
  [123, 34, 107, 101, 121, 49, 34, 58, 34, 118, 97, 108, 117, 101, 49, 34, 125,
   123, 34, 107, 101, 121, 50, 34, 58, 34, 118, 97, 108, 117, 101, 50, 34, 125]

/-! ### Claim C1 -/

/-- Claim C1 (amended): for every byte sequence that is a concatenation of
top-level JSON values each accepted by the splitter's scan under the default
policy, separated by arbitrary splitter whitespace, and for every partition
into reader chunks of at least 1 byte, driving `DecodeAll` with a recording
callback emits exactly the source values in order and reports no error.
(The original claim, quantified over all well-formed values, fails for values
that violate the default policy limits — see the counterexample.) -/
theorem decodeAll_chunking (bufferSize maxRead : Nat) (hmr : 1 ≤ maxRead)
    (chunks : List (List Nat)) (hch : ∀ c ∈ chunks, c ≠ [])
    (w : List Nat) (vws : List (List Nat × List Nat))
    (hw : WsOnly w) (hgood : GoodStream defaultPolicy vws)
    (hS : chunks.flatten = stream w vws) :
    ∃ lxf, decodeAllF recWr false (totalBytes chunks + 1) true
        (NewJsonStreamLexer bufferSize maxRead) chunks =
      some (vws.map Prod.fst, [], lxf) := by
  refine decodeAll_stream_aux defaultPolicy (totalBytes chunks + 1) chunks
    (NewJsonStreamLexer bufferSize maxRead) w vws rfl hmr rfl (by omega) hch hw hgood ?_
  show ([] : List Nat) ++ chunks.flatten = stream w vws
  simpa using hS

/-- Claim C1 counterexample: `c1deep` is a single well-formed top-level JSON
value (delimiter-balanced, per the reference scan), yet feeding it whole
through `DecodeAll` yields no emission at all — the default `max_depth = 20`
policy rejects it — so the emitted ranges do not concatenate to the source. -/
theorem c1_counterexample :
    RawValue c1deep ∧ c1deep ≠ [] ∧
    (decodeAllF recWr false (totalBytes [c1deep] + 1) true
        (NewJsonStreamLexer 16384 4096) [c1deep]).map (fun t => t.1) =
      some [] ∧
    ([] : List (List Nat)) ≠ [c1deep] := by
  refine ⟨?_, ?_, ?_, ?_⟩ <;> decide

/-- Witness for `decodeAll_chunking` at a concrete stream and chunking. -/
theorem decodeAll_chunking_witness :
    ∃ lxf, decodeAllF recWr false (totalBytes c1chunksW + 1) true
        (NewJsonStreamLexer 16 8) c1chunksW =
      some ([c1v1W, c1v2W], [], lxf) :=
  decodeAll_chunking 16 8 (by decide) c1chunksW (by decide) []
    [(c1v1W, [32]), (c1v2W, [])] (by decide) (by decide) (by decide)

/-! ### Claim C6 -/

/-- Claim C6 (amended): for every value `V` accepted by the splitter's scan
under the lexer's policy and every split of `V` into non-empty parts `P` and
`Q`, `NextObject` over a buffer holding only `P` returns `(start, -1, nil)`
with `start = 0`, and over `P ++ Q` returns `(0, end, nil)` with
`buffer[0..=end] = V`.  This holds for every split point, including inside
strings and after a backslash.  (The original claim, over all well-formed
values, fails when the front part already violates a policy limit — see the
counterexample.) -/
theorem nextObject_split (bcap maxRead : Nat) (pol : Policy) (V P Q : List Nat)
    (hacc : Accepted pol V) (hPQ : P ++ Q = V) (hP : P ≠ []) (hQ : Q ≠ []) :
    nextObject { buffer := P, bcap := bcap, cursor := 0, maxRead := maxRead, policy := pol } = .needMore 0 ∧
    nextObject { buffer := P ++ Q, bcap := bcap, cursor := 0, maxRead := maxRead, policy := pol } = .obj 0 (V.length - 1) ∧
    (P ++ Q).take ((V.length - 1) + 1) = V := by
  refine ⟨?_, ?_, ?_⟩
  · have h := nextObject_ws_front { buffer := P, bcap := bcap, cursor := 0, maxRead := maxRead, policy := pol } [] P Q V (by intro c hc; cases hc) hacc hPQ hP hQ (by simp) rfl
    simpa using h
  · have h := nextObject_ws_value { buffer := P ++ Q, bcap := bcap, cursor := 0, maxRead := maxRead, policy := pol } [] V [] (by intro c hc; cases hc) hacc (by simp [hPQ]) rfl
    simpa using h
  · have hlen : 1 ≤ V.length := accepted_length_pos hacc
    have h1 : V.length - 1 + 1 = V.length := by omega
    rw [hPQ, h1, List.take_length]

/-- Claim C6 counterexample: `c1deep` is well-formed for the reference scan,
but with only its first 21 bytes in the buffer `NextObject` returns the
depth policy error instead of `(start, -1, nil)`. -/
theorem c6_counterexample :
    RawValue c1deep ∧ c1deep.take 21 ≠ [] ∧ c1deep.drop 21 ≠ [] ∧
    c1deep.take 21 ++ c1deep.drop 21 = c1deep ∧
    nextObject { buffer := c1deep.take 21, bcap := 16384, cursor := 0, maxRead := 4096, policy := defaultPolicy } = .fail (.arrayDepthExceeded 20) := by
  refine ⟨?_, ?_, ?_, ?_, ?_⟩ <;> decide

/-- Witness for `nextObject_split`: `V = {"a":1}` split after 3 bytes. -/
theorem nextObject_split_witness :
    nextObject { buffer := [123, 34, 97], bcap := 16, cursor := 0, maxRead := 8, policy := defaultPolicy } = .needMore 0 ∧
    nextObject { buffer := ([123, 34, 97] : List Nat) ++ [34, 58, 49, 125], bcap := 16, cursor := 0, maxRead := 8, policy := defaultPolicy } = .obj 0 (c1v1W.length - 1) ∧
    (([123, 34, 97] : List Nat) ++ [34, 58, 49, 125]).take ((c1v1W.length - 1) + 1) =
      c1v1W :=
  nextObject_split 16 8 defaultPolicy c1v1W [123, 34, 97] [34, 58, 49, 125]
    (by decide) (by decide) (by decide) (by decide)

/-! ### Claim C9 -/

/-- Claim C9 (amended): feeding `{"key1":"value1"}{"key2":"value2"}` whole
produces exactly two emissions: the first is `{"key1":"value1"}` occupying
input bytes 0..=16 (`NextObject` returns `(0, 16, nil)`), the second is
`{"key2":"value2"}` occupying input bytes 17..=33. -/
theorem c9_whole_input :
    nextObject { buffer := c9S, bcap := 16384, cursor := 0, maxRead := 4096, policy := defaultPolicy } = .obj 0 16 ∧
    (decodeAllF recWr false (totalBytes [c9S] + 1) true
        (NewJsonStreamLexer 16384 4096) [c9S]).map (fun t => t.1) =
      some [c9S.take 17, (c9S.drop 17).take 17] := by
  constructor <;> decide

/-- Claim C9 counterexample: the claimed byte ranges 0..17 / 18..35 do not
match the code: the second emission is the bytes starting at offset 17, and
differs from the bytes at offset 18 under either an inclusive or an
exclusive reading of `18..35`. -/
theorem c9_counterexample :
    (decodeAllF recWr false (totalBytes [c9S] + 1) true
        (NewJsonStreamLexer 16384 4096) [c9S]).map (fun t => t.1) =
      some [c9S.take 17, (c9S.drop 17).take 17] ∧
    (c9S.drop 17).take 17 ≠ (c9S.drop 18).take 18 ∧
    (c9S.drop 17).take 17 ≠ (c9S.drop 18).take 17 ∧
    c9S.length = 34 := by
  refine ⟨?_, ?_, ?_, ?_⟩ <;> decide

/-! ### Claim C2 -/

/-- Claim C2: the pump's forwarder appends the LF in place on the slice
borrowed from the lexer buffer (`data = append(data, '\n')`), overwriting
the first byte of the next back-to-back value.  On
`{"key1":"value1"}{"key2":"value2"}` arriving in one buffer, the peer
receives only the first value plus LF; the second value is destroyed and
both drain passes report a framing error instead of forwarding it. -/
theorem c2_proxy_corruption :
    (decodeAllF nlWr false (totalBytes [c9S] + 1) true
        (NewJsonStreamLexer 16384 4096) [c9S]).map
          (fun t => (peerWrites t.1, t.2.1)) =
      some ([c9S.take 17 ++ [10]],
            [.unexpectedChar 34 1, .unexpectedChar 34 1]) ∧
    ([c9S.take 17 ++ [10]] : List (List Nat)) ≠
      [c9S.take 17 ++ [10], (c9S.drop 17).take 17 ++ [10]] := by
  constructor <;> decide

/-! ### Claim C7 -/

/-- Claim C7: the `select` in `DecodeAll` has an empty `<-context.Done()`
case with no `return`, so once the context is cancelled every iteration
takes the empty case and the loop spins forever: for every amount of fuel
the loop has not returned.  The claim (and §5 of the spec) says the
direction exits at its next suspension point and returns. -/
theorem decodeAll_cancelled_spins (wr : List Nat → Nat → Nat → List Nat) :
    ∀ (fuel : Nat) (lastC : Bool) (lx : Lexer) (src : List (List Nat)),
      decodeAllF wr true fuel lastC lx src = none := by
  intro fuel
  induction fuel with
  | zero => intro _ _ _; rfl
  | succ n ih => intro lastC lx src; exact ih lastC lx src

/-! ### Claim C8 -/

/-- Lexer with capacity 100, 90 buffered bytes and `maxRead = 20`. -/
def c8lx : Lexer :=
  { buffer := List.replicate 90 97, bcap := 100, cursor := 0, maxRead := 20,
    policy := defaultPolicy }

/-- Claim C8 (amended): `Read` grows when the remaining capacity is below
`length + max_read` (not merely below `max_read`), to `length + max_read`
when the old capacity is below that and to `2 × capacity` otherwise; after
growing, at least `max_read` bytes of free capacity are available; the
buffered bytes are preserved; a read consumes `min(max_read, chunk)` bytes
and extends the length by exactly that amount; an empty source yields EOF
with the buffer untouched. -/
theorem lexRead_spec (lx : Lexer) (src : List (List Nat)) :
    (lexGrow lx).bcap =
      (if lx.bcap - lx.buffer.length < lx.buffer.length + lx.maxRead
       then (if lx.bcap < lx.buffer.length + lx.maxRead
             then lx.buffer.length + lx.maxRead else lx.bcap * 2)
       else lx.bcap) ∧
    lx.maxRead ≤ (lexGrow lx).bcap - lx.buffer.length ∧
    (lexRead lx src).1.buffer.take lx.buffer.length = lx.buffer ∧
    (∀ c cs, (lexRead lx (c :: cs)).2.2 = .ok (min lx.maxRead c.length) ∧
      (lexRead lx (c :: cs)).1.buffer.length =
        lx.buffer.length + min lx.maxRead c.length) ∧
    (lexRead lx []).2.2 = .eof ∧ (lexRead lx []).1.buffer = lx.buffer := by
  have hgrow : (lexGrow lx).bcap =
      (if lx.bcap - lx.buffer.length < lx.buffer.length + lx.maxRead
       then (if lx.bcap < lx.buffer.length + lx.maxRead
             then lx.buffer.length + lx.maxRead else lx.bcap * 2)
       else lx.bcap) := by
    unfold lexGrow
    dsimp only
    split <;> rfl
  refine ⟨hgrow, ?_, ?_, ?_, rfl, ?_⟩
  · rw [hgrow]
    split <;> [skip; omega]
    split <;> omega
  · cases src with
    | nil =>
      rw [lexRead_nil]
      show (lexGrow lx).buffer.take lx.buffer.length = lx.buffer
      rw [lexGrow_buffer]
      simp
    | cons c cs =>
      rw [lexRead_cons]
      show ((lexGrow lx).buffer ++ _).take lx.buffer.length = lx.buffer
      rw [lexGrow_buffer]
      rw [List.take_append_of_le_length (Nat.le_refl _)]
      simp
  · intro c cs
    rw [lexRead_cons]
    refine ⟨?_, ?_⟩
    · show ReadRes.ok (min (lexGrow lx).maxRead c.length) = _
      rw [lexGrow_maxRead]
    · show ((lexGrow lx).buffer ++ c.take (min (lexGrow lx).maxRead c.length)).length = _
      rw [lexGrow_buffer, lexGrow_maxRead, List.length_append, List.length_take]
      congr 1
      omega
  · rw [lexRead_nil]
    show (lexGrow lx).buffer = lx.buffer
    exact lexGrow_buffer lx

/-- Claim C8 counterexample: at capacity 100, length 90, `max_read` 20 both
the claimed and the actual growth trigger fire, but the code grows to
`length + max_read = 110`, not to `max(length + max_read, 2×capacity) = 200`
as claimed. -/
theorem c8_counterexample :
    (lexRead c8lx [[107]]).1.bcap = 110 ∧
    (110 : Nat) ≠ max (c8lx.buffer.length + c8lx.maxRead) (2 * c8lx.bcap) ∧
    c8lx.bcap - c8lx.buffer.length < c8lx.maxRead := by
  refine ⟨?_, ?_, ?_⟩ <;> decide

/-! ### Claim C3 (counterexample part) -/

/-- Claim C3 counterexample: the scanner tracks only two counters, not a
stack of delimiters, so it emits the type-interleaved range `[{]}` as one
value: `NextObject` returns `(0, 3, nil)` on it. -/
theorem c3_counterexample :
    nextObject { buffer := [91, 123, 93, 125], bcap := 16384, cursor := 0, maxRead := 4096, policy := defaultPolicy } = .obj 0 3 := by
  decide

/-! ### Basic lemmas about the reference scan -/

theorem rawStepF_cont_eq (m : MeasSt) (c : Nat) (m' : MeasSt)
    (h : rawStepF m c = .cont m') : m' = measStep m c := by
  unfold rawStepF at h
  split_ifs at h <;> cases h <;> rfl

/-- Shift the positions of a reference scan result by `k`. -/
def RawRes.shift : RawRes → Nat → RawRes
  | .more m, _ => .more m
  | .close j, k => .close (j + k)
  | .bad j, k => .bad (j + k)

theorem RawRes.shift_add (r : RawRes) (a b : Nat) :
    (r.shift a).shift b = r.shift (a + b) := by
  cases r <;> simp [RawRes.shift] <;> omega

theorem rawRun_shift (m : MeasSt) (l : List Nat) (i : Nat) :
    rawRun m l i = (rawRun m l 0).shift i := by
  induction l generalizing m i with
  | nil => rfl
  | cons c rest ih =>
    simp only [rawRun]
    cases h : rawStepF m c with
    | cont m' =>
      dsimp only
      rw [ih m' (i + 1), ih m' 1, RawRes.shift_add]
      congr 1
      omega
    | close => simp [RawRes.shift]
    | bad => simp [RawRes.shift]

theorem measRun_cons (m : MeasSt) (c : Nat) (l : List Nat) :
    measRun m (c :: l) = measRun (measStep m c) l := rfl

theorem measRun_append (m : MeasSt) (a b : List Nat) :
    measRun m (a ++ b) = measRun (measRun m a) b := by
  simp [measRun, List.foldl_append]

/-- Before a reference-scan close, every shorter front part leaves the scan
running, in the state given by the measure fold. -/
theorem rawRun_take_more (l : List Nat) :
    ∀ (m : MeasSt) (j : Nat), rawRun m l 0 = .close j →
    ∀ n, n ≤ j → rawRun m (l.take n) 0 = .more (measRun m (l.take n)) := by
  induction l with
  | nil => intro m j h; simp [rawRun] at h
  | cons c rest ih =>
    intro m j h n hn
    rw [show rawRun m (c :: rest) 0 =
        (match rawStepF m c with
         | .cont m' => rawRun m' rest 1
         | .close => .close 0
         | .bad => .bad 0) from rfl] at h
    cases hs : rawStepF m c with
    | cont m' =>
      rw [hs] at h
      dsimp only at h
      rw [rawRun_shift] at h
      cases n with
      | zero => simp [rawRun, measRun]
      | succ k =>
        have hm' : m' = measStep m c := rawStepF_cont_eq m c m' hs
        cases hr : rawRun m' rest 0 with
        | more m2 => rw [hr] at h; cases h
        | close j2 =>
          rw [hr] at h
          simp only [RawRes.shift] at h
          cases h
          have hk : k ≤ j2 := by omega
          have := ih m' j2 hr k hk
          rw [List.take_succ_cons]
          rw [show rawRun m (c :: rest.take k) 0 =
              (match rawStepF m c with
               | .cont m'' => rawRun m'' (rest.take k) 1
               | .close => .close 0
               | .bad => .bad 0) from rfl, hs]
          dsimp only
          rw [rawRun_shift, this]
          simp [RawRes.shift, measRun_cons, hm']
        | bad j2 => rw [hr] at h; simp [RawRes.shift] at h
    | close =>
      rw [hs] at h
      dsimp only at h
      cases h
      cases n with
      | zero => simp [rawRun, measRun]
      | succ k => omega
    | bad => rw [hs] at h; cases h

/-- One continuing reference-scan step keeps close counts below open
counts. -/
theorem rawStepF_cont_counts (m : MeasSt) (c : Nat)
    (h1 : m.oc ≤ m.oo) (h2 : m.acl ≤ m.ao) (m2 : MeasSt)
    (hs : rawStepF m c = .cont m2) :
    m2.oc ≤ m2.oo ∧ m2.acl ≤ m2.ao := by
  have hm2 : m2 = measStep m c := rawStepF_cont_eq m c m2 hs
  subst hm2
  unfold rawStepF at hs
  unfold measStep
  split_ifs at hs ⊢ <;> (try simp_all) <;> omega

/-- The reference scan keeps close counts below open counts. -/
theorem rawRun_more_counts (l : List Nat) :
    ∀ (m m' : MeasSt) (i : Nat), m.oc ≤ m.oo → m.acl ≤ m.ao →
      rawRun m l i = .more m' → m'.oc ≤ m'.oo ∧ m'.acl ≤ m'.ao := by
  induction l with
  | nil =>
    intro m m' i h1 h2 h
    cases h
    exact ⟨h1, h2⟩
  | cons c rest ih =>
    intro m m' i h1 h2 h
    rw [show rawRun m (c :: rest) i =
        (match rawStepF m c with
         | .cont m2 => rawRun m2 rest (i + 1)
         | .close => .close i
         | .bad => .bad i) from rfl] at h
    cases hs : rawStepF m c with
    | cont m2 =>
      rw [hs] at h
      dsimp only at h
      obtain ⟨g1, g2⟩ := rawStepF_cont_counts m c h1 h2 m2 hs
      exact ih m2 m' (i + 1) g1 g2 h
    | close => rw [hs] at h; cases h
    | bad => rw [hs] at h; cases h

/-! ### Coupling the parse loop with the specification measures -/

/-- Policy values under which no fixed-width counter of the parse loop can
wrap around and the root-object-count check cannot fire spuriously.  The
default policy satisfies this. -/
def PolicyOK (p : Policy) : Prop :=
  p.maxDepth ≤ 254 ∧ p.maxStringLength ≤ 4294967294 ∧
  p.maxArrayLength ≤ 65534 ∧ 1 ≤ p.maxObjectLength

/-- Invariant of every continuing parse-loop state: each counter is within
its policy bound and the root-object counter is 0 or 1, the latter only
while a bracket is open. -/
def StInv (p : Policy) (st : ScanState) : Prop :=
  st.od ≤ p.maxDepth ∧ st.ad ≤ p.maxDepth ∧ st.sl ≤ p.maxStringLength ∧
  st.al ≤ p.maxArrayLength ∧ st.ol ≤ 1 ∧ (st.ol = 1 → 1 ≤ st.od + st.ad)

/-- Coupling between a parse-loop state and a measure state: same string
bits, depths are the differences of the bracket counts, the string counter
is the current interior length and the array counter the `[` count. -/
def Couple (st : ScanState) (m : MeasSt) : Prop :=
  st.inStr = m.inStr ∧ st.esc = m.esc ∧
  m.oc ≤ m.oo ∧ st.od = m.oo - m.oc ∧
  m.acl ≤ m.ao ∧ st.ad = m.ao - m.acl ∧
  st.sl = (if m.inStr then m.cur else 0) ∧
  st.al = m.arrCnt

theorem couple_init : Couple scanInit meas0 := by
  refine ⟨rfl, rfl, ?_, rfl, ?_, rfl, rfl, rfl⟩ <;> exact Nat.le_refl 0

theorem stInv_init (p : Policy) : StInv p scanInit := by
  refine ⟨?_, ?_, ?_, ?_, ?_, ?_⟩ <;> simp [scanInit]

/-- A string-length violation at the current byte makes the parse loop fail
with the string policy error. -/
theorem stepO_str_viol (p : Policy) (hp : PolicyOK p) (st : ScanState)
    (m : MeasSt) (c : Nat) (hc : Couple st m) (hinv : StInv p st)
    (hIn : m.inStr = true) (hbad : p.maxStringLength < m.cur + 1) :
    stepO p st c = .err (.stringTooLong p.maxStringLength) := by
  obtain ⟨hc1, hc2, hc3, hc4, hc5, hc6, hc7, hc8⟩ := hc
  obtain ⟨hi1, hi2, hi3, hi4, hi5, hi6⟩ := hinv
  obtain ⟨hp1, hp2, hp3, hp4⟩ := hp
  have hsl : st.sl = m.cur := by rw [hc7, hIn]; rfl
  have hm : (st.sl + 1) % 4294967296 = st.sl + 1 :=
    Nat.mod_eq_of_lt (by omega)
  unfold stepO
  rw [if_pos (by rw [hc1, hIn]), hm, if_pos (by omega)]

/-- An object-depth violation at a `{` makes the parse loop fail with the
object depth error. -/
theorem stepO_obj_viol (p : Policy) (hp : PolicyOK p) (st : ScanState)
    (m : MeasSt) (hc : Couple st m) (hinv : StInv p st)
    (hIn : m.inStr = false) (hbad : p.maxDepth < m.oo - m.oc + 1) :
    stepO p st 123 = .err (.objectDepthExceeded p.maxDepth) := by
  obtain ⟨hc1, hc2, hc3, hc4, hc5, hc6, hc7, hc8⟩ := hc
  obtain ⟨hi1, hi2, hi3, hi4, hi5, hi6⟩ := hinv
  obtain ⟨hp1, hp2, hp3, hp4⟩ := hp
  have hm : (st.od + 1) % 256 = st.od + 1 := Nat.mod_eq_of_lt (by omega)
  unfold stepO
  rw [if_neg (by rw [hc1, hIn]; simp), if_neg (by omega), if_pos rfl, hm,
    if_pos (by omega)]

/-- An array-depth violation at a `[` makes the parse loop fail with the
array depth error. -/
theorem stepO_arr_viol (p : Policy) (hp : PolicyOK p) (st : ScanState)
    (m : MeasSt) (hc : Couple st m) (hinv : StInv p st)
    (hIn : m.inStr = false) (hbad : p.maxDepth < m.ao - m.acl + 1) :
    stepO p st 91 = .err (.arrayDepthExceeded p.maxDepth) := by
  obtain ⟨hc1, hc2, hc3, hc4, hc5, hc6, hc7, hc8⟩ := hc
  obtain ⟨hi1, hi2, hi3, hi4, hi5, hi6⟩ := hinv
  obtain ⟨hp1, hp2, hp3, hp4⟩ := hp
  have hm : (st.ad + 1) % 256 = st.ad + 1 := Nat.mod_eq_of_lt (by omega)
  unfold stepO
  rw [if_neg (by rw [hc1, hIn]; simp), if_neg (by omega), if_neg (by omega),
    if_pos rfl, hm, if_pos (by omega)]

/-- Absent any policy violation at the current byte, the parse loop mirrors
the reference scan: the same close/bad decision, and on continuation the new
state is coupled to the new measure state and keeps the invariant. -/
theorem stepO_progress (p : Policy) (hp : PolicyOK p) (st : ScanState)
    (m : MeasSt) (c : Nat) (hc : Couple st m) (hinv : StInv p st)
    (hstr : m.inStr = true → m.cur + 1 ≤ p.maxStringLength)
    (hobj : m.inStr = false → c = 123 → m.oo - m.oc + 1 ≤ p.maxDepth)
    (harr : m.inStr = false → c = 91 →
      m.ao - m.acl + 1 ≤ p.maxDepth ∧ m.arrCnt + 1 ≤ p.maxArrayLength) :
    (rawStepF m c = .close → stepO p st c = .done) ∧
    (rawStepF m c = .bad → stepO p st c = .bad) ∧
    (∀ m2, rawStepF m c = .cont m2 →
      ∃ st', stepO p st c = .cont st' ∧ Couple st' m2 ∧ StInv p st') := by
  obtain ⟨hp1, hp2, hp3, hp4⟩ := hp
  obtain ⟨hc1, hc2, hc3, hc4, hc5, hc6, hc7, hc8⟩ := hc
  obtain ⟨hi1, hi2, hi3, hi4, hi5, hi6⟩ := hinv
  cases hIn : m.inStr with
  | true =>
    have hsIn : st.inStr = true := by rw [hc1, hIn]
    have hsl : st.sl = m.cur := by rw [hc7, hIn]; rfl
    have hcur : m.cur + 1 ≤ p.maxStringLength := hstr hIn
    have hmod : (st.sl + 1) % 4294967296 = st.sl + 1 :=
      Nat.mod_eq_of_lt (by omega)
    have hraw : rawStepF m c = .cont (measStep m c) := by
      unfold rawStepF
      rw [if_pos hIn]
    refine ⟨?_, ?_, ?_⟩
    · intro h; rw [hraw] at h; cases h
    · intro h; rw [hraw] at h; cases h
    · intro m2 hm2
      have hm2e : m2 = measStep m c := rawStepF_cont_eq m c m2 hm2
      subst hm2e
      cases hesc : m.esc with
      | true =>
        have hsesc : st.esc = true := by rw [hc2, hesc]
        refine ⟨{ st with sl := st.sl + 1, esc := false }, ?_, ?_, ?_⟩
        · unfold stepO
          rw [if_pos hsIn]
          dsimp only
          rw [hmod, if_neg (by omega), if_pos hsesc]
        · unfold measStep
          rw [if_pos hIn, if_pos hesc]
          exact ⟨by simpa using hc1, by simp, by simpa using hc3,
            by simpa using hc4, by simpa using hc5, by simpa using hc6,
            by simp [hIn, hsl], by simpa using hc8⟩
        · exact ⟨hi1, hi2, by simpa using (by omega : st.sl + 1 ≤ p.maxStringLength),
            hi4, hi5, hi6⟩
      | false =>
        have hsesc : st.esc = false := by rw [hc2, hesc]
        by_cases h92 : c = 92
        · refine ⟨{ st with sl := st.sl + 1, esc := true }, ?_, ?_, ?_⟩
          · unfold stepO
            rw [if_pos hsIn]
            dsimp only
            rw [hmod, if_neg (by omega), if_neg (by rw [hsesc]; simp),
              if_pos h92]
          · unfold measStep
            rw [if_pos hIn, if_neg (by rw [hesc]; simp), if_pos h92]
            exact ⟨by simpa using hc1, by simp, by simpa using hc3,
              by simpa using hc4, by simpa using hc5, by simpa using hc6,
              by simp [hIn, hsl], by simpa using hc8⟩
          · exact ⟨hi1, hi2, by simpa using (by omega : st.sl + 1 ≤ p.maxStringLength),
              hi4, hi5, hi6⟩
        · by_cases h34 : c = 34
          · refine ⟨{ st with inStr := false, sl := 0 }, ?_, ?_, ?_⟩
            · unfold stepO
              rw [if_pos hsIn]
              dsimp only
              rw [hmod, if_neg (by omega), if_neg (by rw [hsesc]; simp),
                if_neg h92, if_pos h34]
            · unfold measStep
              rw [if_pos hIn, if_neg (by rw [hesc]; simp), if_neg h92,
                if_pos h34]
              exact ⟨by simp, by simpa using hc2, by simpa using hc3,
                by simpa using hc4, by simpa using hc5, by simpa using hc6,
                by simp, by simpa using hc8⟩
            · exact ⟨hi1, hi2, by simpa using Nat.zero_le _, hi4, hi5, hi6⟩
          · refine ⟨{ st with sl := st.sl + 1 }, ?_, ?_, ?_⟩
            · unfold stepO
              rw [if_pos hsIn]
              dsimp only
              rw [hmod, if_neg (by omega), if_neg (by rw [hsesc]; simp),
                if_neg h92, if_neg h34]
            · unfold measStep
              rw [if_pos hIn, if_neg (by rw [hesc]; simp), if_neg h92,
                if_neg h34]
              exact ⟨by simpa using hc1, by simpa using hc2, by simpa using hc3,
                by simpa using hc4, by simpa using hc5, by simpa using hc6,
                by simp [hIn, hsl], by simpa using hc8⟩
            · exact ⟨hi1, hi2, by simpa using (by omega : st.sl + 1 ≤ p.maxStringLength),
                hi4, hi5, hi6⟩
  | false =>
    have hsIn : st.inStr = false := by rw [hc1, hIn]
    have hsl : st.sl = 0 := by rw [hc7, hIn]; rfl
    by_cases h34 : c = 34
    · subst h34
      have hraw : rawStepF m 34 = .cont (measStep m 34) := by
        unfold rawStepF
        rw [if_neg (by rw [hIn]; simp), if_neg (by omega), if_neg (by omega)]
      refine ⟨?_, ?_, ?_⟩
      · intro h; rw [hraw] at h; cases h
      · intro h; rw [hraw] at h; cases h
      · intro m2 hm2
        have hm2e : m2 = measStep m 34 := rawStepF_cont_eq m 34 m2 hm2
        subst hm2e
        refine ⟨{ st with inStr := true }, ?_, ?_, ?_⟩
        · unfold stepO
          rw [if_neg (by rw [hsIn]; simp), if_pos rfl]
        · unfold measStep
          rw [if_neg (by rw [hIn]; simp), if_pos rfl]
          exact ⟨by simp, by simpa using hc2, by simpa using hc3,
            by simpa using hc4, by simpa using hc5, by simpa using hc6,
            by simp [hsl], by simpa using hc8⟩
        · exact ⟨hi1, hi2, hi3, hi4, hi5, hi6⟩
    · by_cases h123 : c = 123
      · subst h123
        have hdep : m.oo - m.oc + 1 ≤ p.maxDepth := hobj hIn rfl
        have hmod : (st.od + 1) % 256 = st.od + 1 := Nat.mod_eq_of_lt (by omega)
        have hraw : rawStepF m 123 = .cont (measStep m 123) := by
          unfold rawStepF
          rw [if_neg (by rw [hIn]; simp), if_neg (by omega), if_neg (by omega)]
        refine ⟨?_, ?_, ?_⟩
        · intro h; rw [hraw] at h; cases h
        · intro h; rw [hraw] at h; cases h
        · intro m2 hm2
          have hm2e : m2 = measStep m 123 := rawStepF_cont_eq m 123 m2 hm2
          subst hm2e
          have hmeas : measStep m 123 = { m with oo := m.oo + 1 } := by
            unfold measStep
            rw [if_neg (by rw [hIn]; simp), if_neg (by omega), if_pos rfl]
          by_cases hroot : st.od + 1 = 1 ∧ st.ad = 0
          · have hol0 : st.ol = 0 := by
              rcases Nat.lt_or_ge st.ol 1 with h | h
              · omega
              · exfalso
                have := hi6 (by omega)
                omega
            have hmol : (st.ol + 1) % 65536 = st.ol + 1 :=
              Nat.mod_eq_of_lt (by omega)
            refine ⟨{ st with od := st.od + 1, ol := st.ol + 1 }, ?_, ?_, ?_⟩
            · unfold stepO
              rw [if_neg (by rw [hsIn]; simp), if_neg (by omega), if_pos rfl]
              dsimp only
              rw [hmod, if_neg (by omega), if_pos hroot]
              rw [hmol, if_neg (by omega)]
            · rw [hmeas]
              exact ⟨by simpa using hc1, by simpa using hc2, by simp; omega,
                by simp; omega, by simpa using hc5, by simpa using hc6,
                by simp [hIn, hsl], by simpa using hc8⟩
            · exact ⟨by simpa using (by omega : st.od + 1 ≤ p.maxDepth), hi2, hi3,
                hi4, by simpa using (by omega : st.ol + 1 ≤ 1),
                by simp; omega⟩
          · refine ⟨{ st with od := st.od + 1 }, ?_, ?_, ?_⟩
            · unfold stepO
              rw [if_neg (by rw [hsIn]; simp), if_neg (by omega), if_pos rfl]
              dsimp only
              rw [hmod, if_neg (by omega), if_neg hroot]
            · rw [hmeas]
              exact ⟨by simpa using hc1, by simpa using hc2, by simp; omega,
                by simp; omega, by simpa using hc5, by simpa using hc6,
                by simp [hIn, hsl], by simpa using hc8⟩
            · exact ⟨by simpa using (by omega : st.od + 1 ≤ p.maxDepth), hi2, hi3,
                hi4, hi5, by intro h; have := hi6 h; simp; omega⟩
      · by_cases h91 : c = 91
        · subst h91
          obtain ⟨hdep, hcnt⟩ := harr hIn rfl
          have hmod : (st.ad + 1) % 256 = st.ad + 1 := Nat.mod_eq_of_lt (by omega)
          have hmal : (st.al + 1) % 65536 = st.al + 1 := Nat.mod_eq_of_lt (by omega)
          have hraw : rawStepF m 91 = .cont (measStep m 91) := by
            unfold rawStepF
            rw [if_neg (by rw [hIn]; simp), if_neg (by omega), if_neg (by omega)]
          refine ⟨?_, ?_, ?_⟩
          · intro h; rw [hraw] at h; cases h
          · intro h; rw [hraw] at h; cases h
          · intro m2 hm2
            have hm2e : m2 = measStep m 91 := rawStepF_cont_eq m 91 m2 hm2
            subst hm2e
            have hmeas : measStep m 91 =
                { m with ao := m.ao + 1, arrCnt := m.arrCnt + 1 } := by
              unfold measStep
              rw [if_neg (by rw [hIn]; simp), if_neg (by omega),
                if_neg (by omega), if_pos rfl]
            refine ⟨{ st with ad := st.ad + 1, al := st.al + 1 }, ?_, ?_, ?_⟩
            · unfold stepO
              rw [if_neg (by rw [hsIn]; simp), if_neg (by omega),
                if_neg (by omega), if_pos rfl]
              dsimp only
              rw [hmod, if_neg (by omega)]
              rw [hmal, if_neg (by omega)]
            · rw [hmeas]
              exact ⟨by simpa using hc1, by simpa using hc2, by simpa using hc3,
                by simpa using hc4, by simp; omega, by simp; omega,
                by simp [hIn, hsl], by simp; omega⟩
            · exact ⟨hi1, by simpa using (by omega : st.ad + 1 ≤ p.maxDepth), hi3,
                by simpa using (by omega : st.al + 1 ≤ p.maxArrayLength), hi5,
                by intro h; have := hi6 h; simp; omega⟩
        · by_cases h125 : c = 125
          · subst h125
            refine ⟨?_, ?_, ?_⟩
            · intro h
              unfold rawStepF at h
              rw [if_neg (by rw [hIn]; simp), if_pos rfl] at h
              split_ifs at h with hz hcl
              obtain ⟨hcl1, hcl2⟩ := hcl
              unfold stepO
              rw [if_neg (by rw [hsIn]; simp), if_neg (by omega),
                if_neg (by omega), if_neg (by omega), if_pos rfl,
                if_neg (by omega)]
              dsimp only
              rw [if_pos (by constructor <;> omega)]
            · intro h
              unfold rawStepF at h
              rw [if_neg (by rw [hIn]; simp), if_pos rfl] at h
              split_ifs at h with hz
              unfold stepO
              rw [if_neg (by rw [hsIn]; simp), if_neg (by omega),
                if_neg (by omega), if_neg (by omega), if_pos rfl,
                if_pos (by omega)]
            · intro m2 hm2
              have hm2e : m2 = measStep m 125 := rawStepF_cont_eq m 125 m2 hm2
              subst hm2e
              unfold rawStepF at hm2
              rw [if_neg (by rw [hIn]; simp), if_pos rfl] at hm2
              split_ifs at hm2 with hz hcl
              push_neg at hcl
              have hmeas : measStep m 125 = { m with oc := m.oc + 1 } := by
                unfold measStep
                rw [if_neg (by rw [hIn]; simp), if_neg (by omega),
                  if_neg (by omega), if_neg (by omega), if_pos rfl]
              refine ⟨{ st with od := st.od - 1 }, ?_, ?_, ?_⟩
              · unfold stepO
                rw [if_neg (by rw [hsIn]; simp), if_neg (by omega),
                  if_neg (by omega), if_neg (by omega), if_pos rfl,
                  if_neg (by omega)]
                dsimp only
                rw [if_neg (by
                  intro hq
                  obtain ⟨hq1, hq2⟩ := hq
                  have : m.oo - m.oc = 1 := by omega
                  have : m.ao - m.acl = 0 := by omega
                  exact absurd (by omega : m.oo - m.oc = 1)
                    (fun hh => by
                      have := hcl hh
                      omega))]
              · rw [hmeas]
                exact ⟨by simpa using hc1, by simpa using hc2, by simp; omega,
                  by simp; omega, by simpa using hc5, by simpa using hc6,
                  by simp [hIn, hsl], by simpa using hc8⟩
              · refine ⟨by simpa using (by omega : st.od - 1 ≤ p.maxDepth),
                  hi2, hi3, hi4, hi5, ?_⟩
                intro h
                have h6 := hi6 h
                simp only
                by_cases hone : m.oo - m.oc = 1
                · have := hcl hone
                  omega
                · omega
          · by_cases h93 : c = 93
            · subst h93
              refine ⟨?_, ?_, ?_⟩
              · intro h
                unfold rawStepF at h
                rw [if_neg (by rw [hIn]; simp), if_neg (by omega), if_pos rfl] at h
                split_ifs at h with hz hcl
                obtain ⟨hcl1, hcl2⟩ := hcl
                unfold stepO
                rw [if_neg (by rw [hsIn]; simp), if_neg (by omega),
                  if_neg (by omega), if_neg (by omega), if_neg (by omega),
                  if_pos rfl, if_neg (by omega)]
                dsimp only
                rw [if_pos (by constructor <;> omega)]
              · intro h
                unfold rawStepF at h
                rw [if_neg (by rw [hIn]; simp), if_neg (by omega), if_pos rfl] at h
                split_ifs at h with hz
                unfold stepO
                rw [if_neg (by rw [hsIn]; simp), if_neg (by omega),
                  if_neg (by omega), if_neg (by omega), if_neg (by omega),
                  if_pos rfl, if_pos (by omega)]
              · intro m2 hm2
                have hm2e : m2 = measStep m 93 := rawStepF_cont_eq m 93 m2 hm2
                subst hm2e
                unfold rawStepF at hm2
                rw [if_neg (by rw [hIn]; simp), if_neg (by omega), if_pos rfl] at hm2
                split_ifs at hm2 with hz hcl
                push_neg at hcl
                have hmeas : measStep m 93 = { m with acl := m.acl + 1 } := by
                  unfold measStep
                  rw [if_neg (by rw [hIn]; simp), if_neg (by omega),
                    if_neg (by omega), if_neg (by omega), if_neg (by omega),
                    if_pos rfl]
                refine ⟨{ st with ad := st.ad - 1 }, ?_, ?_, ?_⟩
                · unfold stepO
                  rw [if_neg (by rw [hsIn]; simp), if_neg (by omega),
                    if_neg (by omega), if_neg (by omega), if_neg (by omega),
                    if_pos rfl, if_neg (by omega)]
                  dsimp only
                  rw [if_neg (by
                    intro hq
                    obtain ⟨hq1, hq2⟩ := hq
                    have hone : m.ao - m.acl = 1 := by omega
                    have := hcl (by omega)
                    omega)]
                · rw [hmeas]
                  exact ⟨by simpa using hc1, by simpa using hc2, by simpa using hc3,
                    by simpa using hc4, by simp; omega, by simp; omega,
                    by simp [hIn, hsl], by simpa using hc8⟩
                · refine ⟨hi1, by simpa using (by omega : st.ad - 1 ≤ p.maxDepth),
                    hi3, hi4, hi5, ?_⟩
                  intro h
                  have h6 := hi6 h
                  simp only
                  by_cases hod0 : m.oo - m.oc = 0
                  · have := hcl hod0
                    omega
                  · omega
            · have hraw : rawStepF m c = .cont (measStep m c) := by
                unfold rawStepF
                rw [if_neg (by rw [hIn]; simp), if_neg h125, if_neg h93]
              have hmeas : measStep m c = m := by
                unfold measStep
                rw [if_neg (by rw [hIn]; simp), if_neg h34, if_neg h123,
                  if_neg h91, if_neg h125, if_neg h93]
              refine ⟨?_, ?_, ?_⟩
              · intro h; rw [hraw] at h; cases h
              · intro h; rw [hraw] at h; cases h
              · intro m2 hm2
                have hm2e : m2 = measStep m c := rawStepF_cont_eq m c m2 hm2
                subst hm2e
                refine ⟨st, ?_, ?_, ?_⟩
                · unfold stepO
                  rw [if_neg (by rw [hsIn]; simp), if_neg h34, if_neg h123,
                    if_neg h91, if_neg h125, if_neg h93]
                · rw [hmeas]
                  exact ⟨hc1, hc2, hc3, hc4, hc5, hc6, hc7, hc8⟩
                · exact ⟨hi1, hi2, hi3, hi4, hi5, hi6⟩

/-- An array-count violation at a `[` whose depth is still fine makes the
parse loop fail with the array count error. -/
theorem stepO_arrcnt_viol (p : Policy) (hp : PolicyOK p) (st : ScanState)
    (m : MeasSt) (hc : Couple st m) (hinv : StInv p st)
    (hIn : m.inStr = false) (hdep : m.ao - m.acl + 1 ≤ p.maxDepth)
    (hbad : p.maxArrayLength < m.arrCnt + 1) :
    stepO p st 91 = .err (.arrayCountExceeded p.maxArrayLength) := by
  obtain ⟨hc1, hc2, hc3, hc4, hc5, hc6, hc7, hc8⟩ := hc
  obtain ⟨hi1, hi2, hi3, hi4, hi5, hi6⟩ := hinv
  obtain ⟨hp1, hp2, hp3, hp4⟩ := hp
  have hmad : (st.ad + 1) % 256 = st.ad + 1 := Nat.mod_eq_of_lt (by omega)
  have hmal : (st.al + 1) % 65536 = st.al + 1 := Nat.mod_eq_of_lt (by omega)
  unfold stepO
  rw [if_neg (by rw [hc1, hIn]; simp), if_neg (by omega), if_neg (by omega),
    if_pos rfl, hmad, if_neg (by omega), hmal, if_pos (by omega)]

/-- If the parse loop does not fail at this byte, no policy bound is hit at
this byte. -/
theorem stepO_no_err_ok (p : Policy) (hp : PolicyOK p) (st : ScanState)
    (m : MeasSt) (c : Nat) (hc : Couple st m) (hinv : StInv p st)
    (hne : ∀ e, ¬ stepO p st c = .err e) :
    (m.inStr = true → m.cur + 1 ≤ p.maxStringLength) ∧
    (m.inStr = false → c = 123 → m.oo - m.oc + 1 ≤ p.maxDepth) ∧
    (m.inStr = false → c = 91 →
      m.ao - m.acl + 1 ≤ p.maxDepth ∧ m.arrCnt + 1 ≤ p.maxArrayLength) := by
  refine ⟨?_, ?_, ?_⟩
  · intro hIn
    by_contra hb
    push_neg at hb
    exact hne _ (stepO_str_viol p hp st m c hc hinv hIn hb)
  · intro hIn hc123
    subst hc123
    by_contra hb
    push_neg at hb
    exact hne _ (stepO_obj_viol p hp st m hc hinv hIn hb)
  · intro hIn hc91
    subst hc91
    by_cases hd : p.maxDepth < m.ao - m.acl + 1
    · exact absurd (stepO_arr_viol p hp st m hc hinv hIn hd) (hne _)
    · push_neg at hd
      refine ⟨hd, ?_⟩
      by_contra hb
      push_neg at hb
      exact hne _ (stepO_arrcnt_viol p hp st m hc hinv hIn hd hb)

/-- Converse coupling: each returning outcome of the parse loop forces the
same outcome of the reference scan, and a continuing step tracks the measure
fold. -/
theorem stepO_mirror (p : Policy) (hp : PolicyOK p) (st : ScanState)
    (m : MeasSt) (c : Nat) (hc : Couple st m) (hinv : StInv p st) :
    (stepO p st c = .done → rawStepF m c = .close) ∧
    (stepO p st c = .bad → rawStepF m c = .bad) ∧
    (∀ st', stepO p st c = .cont st' →
      rawStepF m c = .cont (measStep m c) ∧ Couple st' (measStep m c) ∧
      StInv p st') := by
  refine ⟨?_, ?_, ?_⟩
  · intro h
    have hne : ∀ e, ¬ stepO p st c = .err e := by
      intro e he; rw [h] at he; cases he
    obtain ⟨h1, h2, h3⟩ := stepO_no_err_ok p hp st m c hc hinv hne
    obtain ⟨g1, g2, g3⟩ := stepO_progress p hp st m c hc hinv h1 h2 h3
    cases hr : rawStepF m c with
    | cont m2 =>
      obtain ⟨st', hst', _⟩ := g3 m2 hr
      rw [h] at hst'; cases hst'
    | close => rfl
    | bad => rw [g2 hr] at h; cases h
  · intro h
    have hne : ∀ e, ¬ stepO p st c = .err e := by
      intro e he; rw [h] at he; cases he
    obtain ⟨h1, h2, h3⟩ := stepO_no_err_ok p hp st m c hc hinv hne
    obtain ⟨g1, g2, g3⟩ := stepO_progress p hp st m c hc hinv h1 h2 h3
    cases hr : rawStepF m c with
    | cont m2 =>
      obtain ⟨st', hst', _⟩ := g3 m2 hr
      rw [h] at hst'; cases hst'
    | close => rw [g1 hr] at h; cases h
    | bad => rfl
  · intro st' h
    have hne : ∀ e, ¬ stepO p st c = .err e := by
      intro e he; rw [h] at he; cases he
    obtain ⟨h1, h2, h3⟩ := stepO_no_err_ok p hp st m c hc hinv hne
    obtain ⟨g1, g2, g3⟩ := stepO_progress p hp st m c hc hinv h1 h2 h3
    cases hr : rawStepF m c with
    | cont m2 =>
      obtain ⟨st'', hst'', hcpl, hinv'⟩ := g3 m2 hr
      rw [h] at hst''
      injection hst'' with he2
      subst he2
      have hm2 : m2 = measStep m c := rawStepF_cont_eq m c m2 hr
      subst hm2
      exact ⟨rfl, hcpl, hinv'⟩
    | close => rw [g1 hr] at h; cases h
    | bad => rw [g2 hr] at h; cases h

/-- A successful or unmatched-bracket run of the parse loop is mirrored
exactly, position for position, by the policy-free reference scan. -/
theorem scanFrom_to_raw (p : Policy) (hp : PolicyOK p) (l : List Nat) :
    ∀ (st : ScanState) (m : MeasSt) (i : Nat), Couple st m → StInv p st →
    (∀ j, scanFrom p st l i = .done j → rawRun m l i = .close j) ∧
    (∀ j, scanFrom p st l i = .bad j → rawRun m l i = .bad j) := by
  induction l with
  | nil =>
    intro st m i hc hinv
    refine ⟨?_, ?_⟩ <;> (intro j h; cases h)
  | cons c rest ih =>
    intro st m i hc hinv
    obtain ⟨g1, g2, g3⟩ := stepO_mirror p hp st m c hc hinv
    have hscan : scanFrom p st (c :: rest) i =
        (match stepO p st c with
         | .cont st' => scanFrom p st' rest (i + 1)
         | .done => .done i
         | .bad => .bad i
         | .err e => .fail e) := rfl
    have hraw : rawRun m (c :: rest) i =
        (match rawStepF m c with
         | .cont m' => rawRun m' rest (i + 1)
         | .close => .close i
         | .bad => .bad i) := rfl
    refine ⟨?_, ?_⟩ <;> intro j h
    · rw [hscan] at h
      cases hso : stepO p st c with
      | cont st' =>
        rw [hso] at h
        dsimp only at h
        obtain ⟨hr, hcpl, hinv'⟩ := g3 st' hso
        rw [hraw, hr]
        dsimp only
        exact (ih st' (measStep m c) (i + 1) hcpl hinv').1 j h
      | done =>
        rw [hso] at h
        dsimp only at h
        injection h with hij
        subst hij
        rw [hraw, g1 hso]
      | bad => rw [hso] at h; cases h
      | err e => rw [hso] at h; cases h
    · rw [hscan] at h
      cases hso : stepO p st c with
      | cont st' =>
        rw [hso] at h
        dsimp only at h
        obtain ⟨hr, hcpl, hinv'⟩ := g3 st' hso
        rw [hraw, hr]
        dsimp only
        exact (ih st' (measStep m c) (i + 1) hcpl hinv').2 j h
      | bad =>
        rw [hso] at h
        dsimp only at h
        injection h with hij
        subst hij
        rw [hraw, g2 hso]
      | done => rw [hso] at h; cases h
      | err e => rw [hso] at h; cases h

/-- The reference scan closes within the byte list. -/
theorem rawRun_close_lt (l : List Nat) :
    ∀ (m : MeasSt) (j : Nat), rawRun m l 0 = .close j → j < l.length := by
  induction l with
  | nil => intro m j h; cases h
  | cons c rest ih =>
    intro m j h
    rw [show rawRun m (c :: rest) 0 =
        (match rawStepF m c with
         | .cont m' => rawRun m' rest 1
         | .close => .close 0
         | .bad => .bad 0) from rfl] at h
    cases hs : rawStepF m c with
    | cont m' =>
      rw [hs] at h
      dsimp only at h
      rw [rawRun_shift] at h
      cases hr : rawRun m' rest 0 with
      | more m2 => rw [hr] at h; cases h
      | close j2 =>
        rw [hr] at h
        simp only [RawRes.shift] at h
        injection h with hj
        have := ih m' j2 hr
        simp only [List.length_cons]
        omega
      | bad j2 => rw [hr] at h; simp [RawRes.shift] at h
    | close =>
      rw [hs] at h
      injection h with hj
      simp only [List.length_cons]
      omega
    | bad => rw [hs] at h; cases h

/-- Truncating a byte list just after the reference scan's close leaves the
close in place. -/
theorem rawRun_close_take (l : List Nat) :
    ∀ (m : MeasSt) (j : Nat), rawRun m l 0 = .close j →
    rawRun m (l.take (j + 1)) 0 = .close j := by
  induction l with
  | nil => intro m j h; cases h
  | cons c rest ih =>
    intro m j h
    rw [show rawRun m (c :: rest) 0 =
        (match rawStepF m c with
         | .cont m' => rawRun m' rest 1
         | .close => .close 0
         | .bad => .bad 0) from rfl] at h
    cases hs : rawStepF m c with
    | cont m' =>
      rw [hs] at h
      dsimp only at h
      rw [rawRun_shift] at h
      cases hr : rawRun m' rest 0 with
      | more m2 => rw [hr] at h; cases h
      | close j2 =>
        rw [hr] at h
        simp only [RawRes.shift] at h
        injection h with hj
        subst hj
        rw [List.take_succ_cons]
        rw [show rawRun m (c :: rest.take (j2 + 1)) 0 =
            (match rawStepF m c with
             | .cont m'' => rawRun m'' (rest.take (j2 + 1)) 1
             | .close => .close 0
             | .bad => .bad 0) from rfl, hs]
        dsimp only
        rw [rawRun_shift, ih m' j2 hr]
        rfl
      | bad j2 => rw [hr] at h; simp [RawRes.shift] at h
    | close =>
      rw [hs] at h
      injection h with hj
      subst hj
      rw [List.take_succ_cons, List.take_zero]
      rw [show rawRun m [c] 0 =
          (match rawStepF m c with
           | .cont m'' => rawRun m'' [] 1
           | .close => .close 0
           | .bad => .bad 0) from rfl, hs]
    | bad => rw [hs] at h; cases h

/-- At the byte that closes a value, the measure fold through that byte is
outside any string and has equal per-type bracket counts. -/
theorem rawRun_close_balance (l : List Nat) :
    ∀ (m : MeasSt) (j : Nat), m.oc ≤ m.oo → m.acl ≤ m.ao →
    rawRun m l 0 = .close j →
    (measRun m (l.take (j + 1))).inStr = false ∧
    (measRun m (l.take (j + 1))).oo = (measRun m (l.take (j + 1))).oc ∧
    (measRun m (l.take (j + 1))).ao = (measRun m (l.take (j + 1))).acl := by
  induction l with
  | nil => intro m j _ _ h; cases h
  | cons c rest ih =>
    intro m j h1 h2 h
    rw [show rawRun m (c :: rest) 0 =
        (match rawStepF m c with
         | .cont m' => rawRun m' rest 1
         | .close => .close 0
         | .bad => .bad 0) from rfl] at h
    cases hs : rawStepF m c with
    | cont m' =>
      rw [hs] at h
      dsimp only at h
      rw [rawRun_shift] at h
      cases hr : rawRun m' rest 0 with
      | more m2 => rw [hr] at h; cases h
      | close j2 =>
        rw [hr] at h
        simp only [RawRes.shift] at h
        injection h with hj
        subst hj
        obtain ⟨g1, g2⟩ :=
          rawStepF_cont_counts m c h1 h2 m' (by rw [hs])
        have := ih m' j2 g1 g2 hr
        rw [List.take_succ_cons, measRun_cons]
        rwa [rawStepF_cont_eq m c m' hs] at this
      | bad j2 => rw [hr] at h; simp [RawRes.shift] at h
    | close =>
      rw [hs] at h
      injection h with hj
      subst hj
      rw [List.take_succ_cons, List.take_zero]
      have hmr : measRun m [c] = measStep m c := rfl
      unfold rawStepF at hs
      by_cases w1 : m.inStr = true
      · rw [if_pos w1] at hs; cases hs
      rw [Bool.not_eq_true] at w1
      rw [if_neg (by simp [w1])] at hs
      by_cases w2 : c = 125
      · rw [if_pos w2] at hs
        by_cases w3 : m.oo - m.oc = 0
        · rw [if_pos w3] at hs; cases hs
        rw [if_neg w3] at hs
        by_cases w4 : m.oo - m.oc = 1 ∧ m.ao - m.acl = 0
        · subst w2
          rw [hmr]
          unfold measStep
          rw [if_neg (by simp [w1]), if_neg (by omega), if_neg (by omega),
            if_neg (by omega), if_pos rfl]
          exact ⟨by simp [w1], by simp; omega, by simp; omega⟩
        · rw [if_neg w4] at hs; cases hs
      rw [if_neg w2] at hs
      by_cases w5 : c = 93
      · rw [if_pos w5] at hs
        by_cases w6 : m.ao - m.acl = 0
        · rw [if_pos w6] at hs; cases hs
        rw [if_neg w6] at hs
        by_cases w7 : m.oo - m.oc = 0 ∧ m.ao - m.acl = 1
        · subst w5
          rw [hmr]
          unfold measStep
          rw [if_neg (by simp [w1]), if_neg (by omega), if_neg (by omega),
            if_neg (by omega), if_neg (by omega), if_pos rfl]
          exact ⟨by simp [w1], by simp; omega, by simp; omega⟩
        · rw [if_neg w7] at hs; cases hs
      rw [if_neg w5] at hs
      cases hs
    | bad => rw [hs] at h; cases h

/-- The head (with default) of a drop is an indexed read. -/
theorem headD_drop (l : List Nat) : ∀ k, (l.drop k).headD 0 = l.getD k 0 := by
  induction l with
  | nil => intro k; cases k <;> rfl
  | cons c rest ih =>
    intro k
    cases k with
    | zero => rfl
    | succ k2 => simpa using ih k2

/-- A found start points, within the searched suffix, at a `{` or `[`. -/
theorem findStart_found (l : List Nat) :
    ∀ (pos s : Nat), findStart l pos = .found s →
      pos ≤ s ∧ s - pos < l.length ∧
      (l.getD (s - pos) 0 = 123 ∨ l.getD (s - pos) 0 = 91) := by
  induction l with
  | nil => intro pos s h; cases h
  | cons c rest ih =>
    intro pos s h
    unfold findStart at h
    split_ifs at h with w1 w2 w3
    · injection h with hs
      subst hs
      simp only [Nat.sub_self]
      exact ⟨Nat.le_refl pos, by simp, by simpa using w1⟩
    · obtain ⟨g1, g2, g3⟩ := ih (pos + 1) s h
      have hsp : s - pos = (s - (pos + 1)) + 1 := by omega
      rw [hsp]
      simp only [List.getD_cons_succ, List.length_cons]
      exact ⟨by omega, by omega, g3⟩

/-- One more byte of the measure fold over a prefix. -/
theorem measRun_take_succ (m : MeasSt) (l : List Nat) (n : Nat)
    (h : n < l.length) :
    measRun m (l.take (n + 1)) = measStep (measRun m (l.take n)) (l.getD n 0) := by
  rw [List.take_succ, measRun_append]
  have : l[n]? = some (l.getD n 0) := by
    rw [List.getElem?_eq_getElem h]
    simp [List.getD_eq_getElem?_getD, List.getElem?_eq_getElem h]
  rw [this]
  rfl

/-- No policy bound is hit when the parse loop processes byte `c` from
measure state `m`. -/
def OKc (p : Policy) (m : MeasSt) (c : Nat) : Prop :=
  (m.inStr = true → m.cur + 1 ≤ p.maxStringLength) ∧
  (m.inStr = false → c = 123 → m.oo - m.oc + 1 ≤ p.maxDepth) ∧
  (m.inStr = false → c = 91 →
    m.ao - m.acl + 1 ≤ p.maxDepth ∧ m.arrCnt + 1 ≤ p.maxArrayLength)

/-- `OKc` at position `n` of the byte list, measured from state `m`. -/
def OKAt (p : Policy) (m : MeasSt) (l : List Nat) (n : Nat) : Prop :=
  OKc p (measRun m (l.take n)) (l.getD n 0)

/-- The error the parse loop raises at a policy violation on byte `c` in
measure state `m` (string check first, then object depth, then array depth,
then array count, as in the code). -/
def violErr (p : Policy) (m : MeasSt) (c : Nat) : LexErr :=
  if m.inStr then .stringTooLong p.maxStringLength
  else if c = 123 then .objectDepthExceeded p.maxDepth
  else if p.maxDepth < m.ao - m.acl + 1 then .arrayDepthExceeded p.maxDepth
  else .arrayCountExceeded p.maxArrayLength

/-- A failing step of the parse loop happens exactly at a policy violation
and raises the error `violErr` determines. -/
theorem stepO_err_eq (p : Policy) (hp : PolicyOK p) (st : ScanState)
    (m : MeasSt) (c : Nat) (hc : Couple st m) (hinv : StInv p st) (e : LexErr)
    (h : stepO p st c = .err e) : ¬ OKc p m c ∧ e = violErr p m c := by
  have hnok : ¬ OKc p m c := by
    intro hok
    obtain ⟨h1, h2, h3⟩ := hok
    obtain ⟨g1, g2, g3⟩ := stepO_progress p hp st m c hc hinv h1 h2 h3
    cases hr : rawStepF m c with
    | cont m2 =>
      obtain ⟨st', hst', _⟩ := g3 m2 hr
      rw [h] at hst'; cases hst'
    | close => rw [g1 hr] at h; cases h
    | bad => rw [g2 hr] at h; cases h
  refine ⟨hnok, ?_⟩
  cases hIn : m.inStr with
  | true =>
    have hbad : p.maxStringLength < m.cur + 1 := by
      by_contra hb
      push_neg at hb
      refine hnok ⟨fun _ => hb, ?_, ?_⟩ <;>
        (intro hf; rw [hIn] at hf; cases hf)
    have hv := stepO_str_viol p hp st m c hc hinv hIn hbad
    rw [hv] at h
    injection h with he
    rw [← he]
    unfold violErr
    rw [if_pos hIn]
  | false =>
    by_cases hc123 : c = 123
    · subst hc123
      have hbad : p.maxDepth < m.oo - m.oc + 1 := by
        by_contra hb
        push_neg at hb
        refine hnok ⟨?_, fun _ _ => hb, ?_⟩
        · intro hf
          rw [hIn] at hf
          cases hf
        · intro _ hf
          exact absurd hf (by omega)
      have hv := stepO_obj_viol p hp st m hc hinv hIn hbad
      rw [hv] at h
      injection h with he
      rw [← he]
      unfold violErr
      rw [if_neg (by simp [hIn]), if_pos rfl]
    · by_cases hc91 : c = 91
      · subst hc91
        by_cases hd : p.maxDepth < m.ao - m.acl + 1
        · have hv := stepO_arr_viol p hp st m hc hinv hIn hd
          rw [hv] at h
          injection h with he
          rw [← he]
          unfold violErr
          rw [if_neg (by simp [hIn]), if_neg (by omega), if_pos hd]
        · push_neg at hd
          have hbad : p.maxArrayLength < m.arrCnt + 1 := by
            by_contra hb
            push_neg at hb
            refine hnok ⟨?_, ?_, fun _ _ => ⟨hd, hb⟩⟩
            · intro hf
              rw [hIn] at hf
              cases hf
            · intro _ hf
              exact absurd hf (by omega)
          have hv := stepO_arrcnt_viol p hp st m hc hinv hIn hd hbad
          rw [hv] at h
          injection h with he
          rw [← he]
          unfold violErr
          rw [if_neg (by simp [hIn]), if_neg (by omega),
            if_neg (by omega)]
      · refine absurd ⟨?_, fun _ hf => absurd hf hc123,
          fun _ hf => absurd hf hc91⟩ hnok
        intro hf
        rw [hIn] at hf
        cases hf

/-- If the reference scan is still running when the first policy violation
is reached, the parse loop fails with exactly the error of that violation. -/
theorem scanFrom_first_viol (p : Policy) (hp : PolicyOK p) (l : List Nat) :
    ∀ (st : ScanState) (m : MeasSt) (i n : Nat), Couple st m → StInv p st →
    n < l.length →
    rawRun m (l.take n) 0 = .more (measRun m (l.take n)) →
    (∀ k, k < n → OKAt p m l k) →
    ¬ OKAt p m l n →
    scanFrom p st l i =
      .fail (violErr p (measRun m (l.take n)) (l.getD n 0)) := by
  induction l with
  | nil =>
    intro st m i n _ _ hn _ _ _
    simp at hn
  | cons c rest ih =>
    intro st m i n hc hinv hn halive hok hviol
    cases n with
    | zero =>
      have hv0 : ¬ OKc p m c := by
        simpa [OKAt, measRun] using hviol
      have hex : ∃ e, stepO p st c = .err e := by
        by_contra hb
        push_neg at hb
        exact hv0 (stepO_no_err_ok p hp st m c hc hinv hb)
      obtain ⟨e, he⟩ := hex
      obtain ⟨-, hee⟩ := stepO_err_eq p hp st m c hc hinv e he
      rw [show scanFrom p st (c :: rest) i =
          (match stepO p st c with
           | .cont st' => scanFrom p st' rest (i + 1)
           | .done => .done i
           | .bad => .bad i
           | .err e0 => .fail e0) from rfl, he]
      dsimp only
      rw [hee]
      rfl
    | succ n2 =>
      have hok0 : OKc p m c := by
        simpa [OKAt, measRun, OKc] using hok 0 (Nat.succ_pos n2)
      rw [List.take_succ_cons] at halive
      rw [show rawRun m (c :: rest.take n2) 0 =
          (match rawStepF m c with
           | .cont m' => rawRun m' (rest.take n2) 1
           | .close => .close 0
           | .bad => .bad 0) from rfl] at halive
      cases hr : rawStepF m c with
      | close => rw [hr] at halive; cases halive
      | bad => rw [hr] at halive; cases halive
      | cont m' =>
        rw [hr] at halive
        dsimp only at halive
        have hm' : m' = measStep m c := rawStepF_cont_eq m c m' hr
        subst hm'
        obtain ⟨g1, g2, g3⟩ :=
          stepO_progress p hp st m c hc hinv hok0.1 hok0.2.1 hok0.2.2
        obtain ⟨st', hst', hcpl, hinv'⟩ := g3 (measStep m c) hr
        rw [rawRun_shift] at halive
        have halive' : rawRun (measStep m c) (rest.take n2) 0 =
            .more (measRun (measStep m c) (rest.take n2)) := by
          cases hx : rawRun (measStep m c) (rest.take n2) 0 with
          | more mm =>
            rw [hx] at halive
            simp only [RawRes.shift] at halive
            injection halive with hmm
            rw [hmm, measRun_cons]
          | close j =>
            rw [hx] at halive
            simp only [RawRes.shift] at halive
            cases halive
          | bad j =>
            rw [hx] at halive
            simp only [RawRes.shift] at halive
            cases halive
        have hok' : ∀ k, k < n2 → OKAt p (measStep m c) rest k := by
          intro k hk
          have hk1 := hok (k + 1) (by omega)
          simpa [OKAt, List.take_succ_cons, measRun_cons,
            List.getD_cons_succ] using hk1
        have hviol' : ¬ OKAt p (measStep m c) rest n2 := by
          intro hx2
          apply hviol
          simpa [OKAt, List.take_succ_cons, measRun_cons,
            List.getD_cons_succ] using hx2
        rw [show scanFrom p st (c :: rest) i =
            (match stepO p st c with
             | .cont st2 => scanFrom p st2 rest (i + 1)
             | .done => .done i
             | .bad => .bad i
             | .err e0 => .fail e0) from rfl, hst']
        dsimp only
        rw [ih st' (measStep m c) (i + 1) n2 hcpl hinv' (by simpa using hn)
          halive' hok' hviol']
        rw [List.take_succ_cons, measRun_cons, List.getD_cons_succ]

/-- A failing run of the parse loop pinpoints a first policy violation whose
error it raises. -/
theorem scanFrom_fail_viol (p : Policy) (hp : PolicyOK p) (l : List Nat) :
    ∀ (st : ScanState) (m : MeasSt) (i : Nat) (e : LexErr), Couple st m →
    StInv p st → scanFrom p st l i = .fail e →
    ∃ n, n < l.length ∧ (∀ k, k < n → OKAt p m l k) ∧ ¬ OKAt p m l n ∧
      e = violErr p (measRun m (l.take n)) (l.getD n 0) := by
  induction l with
  | nil => intro st m i e _ _ h; cases h
  | cons c rest ih =>
    intro st m i e hc hinv h
    rw [show scanFrom p st (c :: rest) i =
        (match stepO p st c with
         | .cont st' => scanFrom p st' rest (i + 1)
         | .done => .done i
         | .bad => .bad i
         | .err e0 => .fail e0) from rfl] at h
    cases hso : stepO p st c with
    | done => rw [hso] at h; cases h
    | bad => rw [hso] at h; cases h
    | err e0 =>
      rw [hso] at h
      dsimp only at h
      injection h with he
      subst he
      obtain ⟨hnok, hee⟩ := stepO_err_eq p hp st m c hc hinv e0 hso
      refine ⟨0, by simp, fun k hk => absurd hk (Nat.not_lt_zero k), ?_, ?_⟩
      · simpa [OKAt, measRun] using hnok
      · simpa [measRun, List.getD_cons_zero] using hee
    | cont st' =>
      rw [hso] at h
      dsimp only at h
      obtain ⟨g1, g2, g3⟩ := stepO_mirror p hp st m c hc hinv
      obtain ⟨hr, hcpl, hinv'⟩ := g3 st' hso
      obtain ⟨n, hn, hok, hviol, hee⟩ :=
        ih st' (measStep m c) (i + 1) e hcpl hinv' h
      refine ⟨n + 1, by simpa using hn, ?_, ?_, ?_⟩
      · intro k hk
        cases k with
        | zero =>
          have hne : ∀ e2, ¬ stepO p st c = .err e2 := by
            intro e2 he2
            rw [hso] at he2
            cases he2
          have hq := stepO_no_err_ok p hp st m c hc hinv hne
          simpa [OKAt, measRun, OKc] using hq
        | succ k2 =>
          have hk2 := hok k2 (by omega)
          simpa [OKAt, List.take_succ_cons, measRun_cons,
            List.getD_cons_succ] using hk2
      · intro hx
        apply hviol
        simpa [OKAt, List.take_succ_cons, measRun_cons,
          List.getD_cons_succ] using hx
      · rw [List.take_succ_cons, measRun_cons, List.getD_cons_succ]
        exact hee

/-- Net object nesting of `v` after its first `n` bytes (spec measure). -/
def objNest (v : List Nat) (n : Nat) : Nat :=
  (measRun meas0 (v.take n)).oo - (measRun meas0 (v.take n)).oc

/-- Net array nesting of `v` after its first `n` bytes (spec measure). -/
def arrNest (v : List Nat) (n : Nat) : Nat :=
  (measRun meas0 (v.take n)).ao - (measRun meas0 (v.take n)).acl

instance (p : Policy) : Decidable (PolicyOK p) := by
  unfold PolicyOK
  infer_instance

/-- Every proper prefix of a complete value leaves the reference scan
running, with close counts below open counts. -/
theorem rawValue_prefix (V : List Nat) (hV : RawValue V) (n : Nat)
    (hn : n < V.length) :
    rawRun meas0 (V.take n) 0 = .more (measRun meas0 (V.take n)) ∧
    (measRun meas0 (V.take n)).oc ≤ (measRun meas0 (V.take n)).oo ∧
    (measRun meas0 (V.take n)).acl ≤ (measRun meas0 (V.take n)).ao := by
  obtain ⟨-, hclose⟩ := hV
  have halive := rawRun_take_more V meas0 (V.length - 1) hclose n (by omega)
  refine ⟨halive, ?_⟩
  exact rawRun_more_counts (V.take n) meas0 _ 0 (Nat.le_refl 0)
    (Nat.le_refl 0) halive

/-- A `{` outside a string opens one more object. -/
theorem measStep_oo_oc (m : MeasSt) (hIn : m.inStr = false) :
    (measStep m 123).oo = m.oo + 1 ∧ (measStep m 123).oc = m.oc := by
  unfold measStep
  rw [if_neg (by simp [hIn]), if_neg (by omega), if_pos rfl]
  exact ⟨rfl, rfl⟩

/-- A `[` outside a string opens one more array. -/
theorem measStep_ao_acl (m : MeasSt) (hIn : m.inStr = false) :
    (measStep m 91).ao = m.ao + 1 ∧ (measStep m 91).acl = m.acl := by
  unfold measStep
  rw [if_neg (by simp [hIn]), if_neg (by omega), if_neg (by omega),
    if_pos rfl]
  exact ⟨rfl, rfl⟩

/-- The net object count rises only at a `{` outside a string. -/
theorem measStep_nest_obj (m : MeasSt) (c : Nat)
    (h : m.oo - m.oc < (measStep m c).oo - (measStep m c).oc) :
    m.inStr = false ∧ c = 123 := by
  by_cases hIn : m.inStr = true
  · exfalso
    unfold measStep at h
    rw [if_pos hIn] at h
    split_ifs at h <;> simp at h
  · rw [Bool.not_eq_true] at hIn
    refine ⟨hIn, ?_⟩
    by_contra hc123
    unfold measStep at h
    rw [if_neg (by simp [hIn])] at h
    by_cases h34 : c = 34
    · rw [if_pos h34] at h; simp at h
    rw [if_neg h34, if_neg hc123] at h
    by_cases h91 : c = 91
    · rw [if_pos h91] at h; simp at h
    rw [if_neg h91] at h
    by_cases h125 : c = 125
    · rw [if_pos h125] at h
      simp at h
      omega
    rw [if_neg h125] at h
    by_cases h93 : c = 93
    · rw [if_pos h93] at h; simp at h
    rw [if_neg h93] at h
    simp at h

/-- The net array count rises only at a `[` outside a string. -/
theorem measStep_nest_arr (m : MeasSt) (c : Nat)
    (h : m.ao - m.acl < (measStep m c).ao - (measStep m c).acl) :
    m.inStr = false ∧ c = 91 := by
  by_cases hIn : m.inStr = true
  · exfalso
    unfold measStep at h
    rw [if_pos hIn] at h
    split_ifs at h <;> simp at h
  · rw [Bool.not_eq_true] at hIn
    refine ⟨hIn, ?_⟩
    by_contra hc91
    unfold measStep at h
    rw [if_neg (by simp [hIn])] at h
    by_cases h34 : c = 34
    · rw [if_pos h34] at h; simp at h
    rw [if_neg h34] at h
    by_cases h123 : c = 123
    · rw [if_pos h123] at h; simp at h
    rw [if_neg h123, if_neg hc91] at h
    by_cases h125 : c = 125
    · rw [if_pos h125] at h; simp at h
    rw [if_neg h125] at h
    by_cases h93 : c = 93
    · rw [if_pos h93] at h
      simp at h
      omega
    rw [if_neg h93] at h
    simp at h

/-- Byte position `k` of a complete value passes all policy checks as soon
as the string counter, both per-type nests and the array count are within
bounds there. -/
theorem okAt_of_bounds (p : Policy) (V : List Nat) (hV : RawValue V)
    (k : Nat) (hk : k < V.length)
    (hstr : (measRun meas0 (V.take k)).inStr = true →
      (measRun meas0 (V.take k)).cur + 1 ≤ p.maxStringLength)
    (hobj : objNest V (k + 1) ≤ p.maxDepth)
    (harrd : arrNest V (k + 1) ≤ p.maxDepth)
    (hcnt : (measRun meas0 (V.take k)).arrCnt + 1 ≤ p.maxArrayLength) :
    OKAt p meas0 V k := by
  obtain ⟨halive, hoc, hacl⟩ := rawValue_prefix V hV k hk
  refine ⟨hstr, ?_, ?_⟩
  · intro hIn h123
    have hsucc := measRun_take_succ meas0 V k hk
    rw [h123] at hsucc
    obtain ⟨e1, e2⟩ := measStep_oo_oc (measRun meas0 (V.take k)) hIn
    unfold objNest at hobj
    rw [hsucc, e1, e2] at hobj
    omega
  · intro hIn h91
    have hsucc := measRun_take_succ meas0 V k hk
    rw [h91] at hsucc
    obtain ⟨e1, e2⟩ := measStep_ao_acl (measRun meas0 (V.take k)) hIn
    unfold arrNest at harrd
    rw [hsucc, e1, e2] at harrd
    exact ⟨by omega, hcnt⟩

/-- The head (with default) of a non-trivial take is the list's head. -/
theorem headD_take (l : List Nat) (n : Nat) (hn : 0 < n) :
    (l.take n).headD 0 = l.headD 0 := by
  cases l with
  | nil => simp
  | cons c rest =>
    cases n with
    | zero => exact absurd hn (Nat.lt_irrefl 0)
    | succ k => rfl

/-- Lexer of the C3 witness: buffer holds the single value
`\x7b"a":[1]\x7d` over the default policy. -/
def c3lx : Lexer :=
  { buffer := [123, 34, 97, 34, 58, 91, 49, 93, 125], bcap := 16384,
    cursor := 0, maxRead := 4096, policy := defaultPolicy }

/-- C3 (amended): every byte range `NextObject` emits as a value is
delimiter-count-balanced under the specification measures: it opens with
`\x7b` or `[`, the policy-free reference scan (which respects strings and
escapes) closes it exactly at its last byte and at no earlier byte, and
through the closing byte the scan ends outside any string with equally many
`\x7b` and `\x7d` and equally many `[` and `]` outside strings.  Pairwise
matching of bracket TYPES is not checked (see `c3_counterexample`: `[\x7b]\x7d`
is emitted as a value). -/
theorem nextObject_balanced (lx : Lexer) (hp : PolicyOK lx.policy)
    (s e : Nat) (h : nextObject lx = .obj s e) :
    s ≤ e ∧ e < lx.buffer.length ∧
    RawValue ((lx.buffer.drop s).take (e - s + 1)) ∧
    (measRun meas0 ((lx.buffer.drop s).take (e - s + 1))).inStr = false ∧
    (measRun meas0 ((lx.buffer.drop s).take (e - s + 1))).oo =
      (measRun meas0 ((lx.buffer.drop s).take (e - s + 1))).oc ∧
    (measRun meas0 ((lx.buffer.drop s).take (e - s + 1))).ao =
      (measRun meas0 ((lx.buffer.drop s).take (e - s + 1))).acl ∧
    ∀ n, n < e - s + 1 →
      rawRun meas0 (((lx.buffer.drop s).take (e - s + 1)).take n) 0 =
        .more (measRun meas0 (((lx.buffer.drop s).take (e - s + 1)).take n)) := by
  unfold nextObject at h
  cases hf : findStart (lx.buffer.drop lx.cursor) lx.cursor with
  | fail e0 => rw [hf] at h; cases h
  | exhausted => rw [hf] at h; cases h
  | found s0 =>
    rw [hf] at h
    dsimp only at h
    cases hsc : scanFrom lx.policy scanInit (lx.buffer.drop s0) s0 with
    | more st => rw [hsc] at h; cases h
    | bad j => rw [hsc] at h; cases h
    | fail e0 => rw [hsc] at h; cases h
    | done stop =>
      rw [hsc] at h
      dsimp only at h
      injection h with h1 h2
      subst h1
      subst h2
      have hraw : rawRun meas0 (lx.buffer.drop s0) s0 = .close stop :=
        (scanFrom_to_raw lx.policy hp (lx.buffer.drop s0) scanInit meas0 s0
          couple_init (stInv_init _)).1 stop hsc
      rw [rawRun_shift] at hraw
      cases hr0 : rawRun meas0 (lx.buffer.drop s0) 0 with
      | more mm =>
        rw [hr0] at hraw
        simp only [RawRes.shift] at hraw
        cases hraw
      | bad j =>
        rw [hr0] at hraw
        simp only [RawRes.shift] at hraw
        cases hraw
      | close j0 =>
        rw [hr0] at hraw
        simp only [RawRes.shift] at hraw
        injection hraw with hj
        have hlt := rawRun_close_lt (lx.buffer.drop s0) meas0 j0 hr0
        rw [List.length_drop] at hlt
        have hse : s0 ≤ stop := by omega
        have hje : j0 = stop - s0 := by omega
        subst hje
        have helen : stop < lx.buffer.length := by omega
        have htake := rawRun_close_take (lx.buffer.drop s0) meas0 (stop - s0) hr0
        have hVlen : ((lx.buffer.drop s0).take (stop - s0 + 1)).length = stop - s0 + 1 := by
          rw [List.length_take, List.length_drop]
          omega
        have hop : (lx.buffer.drop s0).headD 0 = 123 ∨
            (lx.buffer.drop s0).headD 0 = 91 := by
          obtain ⟨q1, q2, q3⟩ :=
            findStart_found (lx.buffer.drop lx.cursor) lx.cursor s0 hf
          have he1 : ((lx.buffer.drop lx.cursor).drop (s0 - lx.cursor)).headD 0 =
              (lx.buffer.drop lx.cursor).getD (s0 - lx.cursor) 0 :=
            headD_drop _ _
          rw [List.drop_drop] at he1
          rw [show lx.cursor + (s0 - lx.cursor) = s0 by omega] at he1
          rw [← he1] at q3
          exact q3
        have hRV : RawValue ((lx.buffer.drop s0).take (stop - s0 + 1)) := by
          refine ⟨?_, ?_⟩
          · unfold openerHead
            rw [headD_take _ _ (Nat.succ_pos (stop - s0))]
            exact hop
          · rw [hVlen]
            simpa using htake
        obtain ⟨b1, b2, b3⟩ := rawRun_close_balance (lx.buffer.drop s0) meas0
          (stop - s0) (Nat.le_refl 0) (Nat.le_refl 0) hr0
        refine ⟨hse, helen, hRV, b1, b2, b3, ?_⟩
        intro n hn
        exact rawRun_take_more ((lx.buffer.drop s0).take (stop - s0 + 1)) meas0
          (stop - s0) (by rw [show stop - s0 = ((lx.buffer.drop s0).take (stop - s0 + 1)).length - 1 by omega] at htake ⊢; simpa using htake) n (by omega)

/-- C3 witness: the emitted range of `\x7b"a":[1]\x7d` is a complete value of
the reference scan. -/
theorem nextObject_balanced_witness :
    RawValue ((c3lx.buffer.drop 0).take (8 - 0 + 1)) :=
  (nextObject_balanced c3lx (by decide) 0 8 (by decide)).2.2.1

/-- Input of the C4 counterexample: 11 `[`, then 11 `\x7b`, then 11 `\x7d`,
then 11 `]` — combined nesting reaches 22, each per-type nesting stays at
11. -/
def c4comb : List Nat :=
  List.replicate 11 91 ++ List.replicate 11 123 ++
  List.replicate 11 125 ++ List.replicate 11 93

/-- C4 counterexample: under the default policy (`max_depth` 20) the
combined number of unclosed `\x7b` and `[` reaches 22 after 22 bytes of
`c4comb`, yet the scan emits the value (no depth error): the code checks
each bracket type separately, not the combined nesting the claim states. -/
theorem c4_counterexample :
    scanFrom defaultPolicy scanInit c4comb 0 = .done 43 ∧
    defaultPolicy.maxDepth <
      (measRun meas0 (c4comb.take 22)).oo -
        (measRun meas0 (c4comb.take 22)).oc +
      ((measRun meas0 (c4comb.take 22)).ao -
        (measRun meas0 (c4comb.take 22)).acl) := by
  decide

/-- C4 (amended): for a complete value within the string-length and
array-count limits, the scan fails with a depth policy error if and only if
at some point the net nesting of ONE bracket type alone (`\x7b` via
`objNest`, `[` via `arrNest`) exceeds `max_depth`; the combined nesting of
the two types is not what the code bounds (see `c4_counterexample`). -/
theorem depth_error_iff (p : Policy) (hp : PolicyOK p) (V : List Nat)
    (hV : RawValue V)
    (hstr : ∀ n, n < V.length → (measRun meas0 (V.take n)).inStr = true →
      (measRun meas0 (V.take n)).cur + 1 ≤ p.maxStringLength)
    (hcnt : ∀ n, n < V.length →
      (measRun meas0 (V.take n)).arrCnt + 1 ≤ p.maxArrayLength) :
    (scanFrom p scanInit V 0 = .fail (.objectDepthExceeded p.maxDepth) ∨
     scanFrom p scanInit V 0 = .fail (.arrayDepthExceeded p.maxDepth)) ↔
    ∃ n, n < V.length ∧
      (p.maxDepth < objNest V (n + 1) ∨ p.maxDepth < arrNest V (n + 1)) := by
  constructor
  · intro hfail
    have hex : ∃ e, scanFrom p scanInit V 0 = .fail e ∧
        (e = .objectDepthExceeded p.maxDepth ∨
         e = .arrayDepthExceeded p.maxDepth) := by
      cases hfail with
      | inl h => exact ⟨_, h, Or.inl rfl⟩
      | inr h => exact ⟨_, h, Or.inr rfl⟩
    obtain ⟨e, hsf, hes⟩ := hex
    obtain ⟨n, hn, hok, hviol, hee⟩ :=
      scanFrom_fail_viol p hp V scanInit meas0 0 e couple_init
        (stInv_init p) hsf
    obtain ⟨halive, hoc, hacl⟩ := rawValue_prefix V hV n hn
    have hsucc := measRun_take_succ meas0 V n hn
    cases hInn : (measRun meas0 (V.take n)).inStr with
    | true =>
      exfalso
      rcases hes with hcase | hcase <;>
        (rw [hee] at hcase; unfold violErr at hcase;
         rw [if_pos hInn] at hcase; cases hcase)
    | false =>
      by_cases h123 : V.getD n 0 = 123
      · have hBbad : p.maxDepth <
            (measRun meas0 (V.take n)).oo -
              (measRun meas0 (V.take n)).oc + 1 := by
          by_contra hb
          push_neg at hb
          refine hviol ?_
          unfold OKAt OKc
          refine ⟨?_, fun _ _ => hb, ?_⟩
          · intro hf
            rw [hInn] at hf
            cases hf
          · intro _ hf
            rw [h123] at hf
            exact absurd hf (by omega)
        refine ⟨n, hn, Or.inl ?_⟩
        obtain ⟨e1, e2⟩ := measStep_oo_oc (measRun meas0 (V.take n)) hInn
        unfold objNest
        rw [hsucc, h123, e1, e2]
        omega
      · by_cases h91 : V.getD n 0 = 91
        · have hCbad : p.maxDepth <
              (measRun meas0 (V.take n)).ao -
                (measRun meas0 (V.take n)).acl + 1 := by
            by_cases hd : p.maxDepth <
                (measRun meas0 (V.take n)).ao -
                  (measRun meas0 (V.take n)).acl + 1
            · exact hd
            · exfalso
              push_neg at hd
              have hcn := hcnt n hn
              refine hviol ?_
              unfold OKAt OKc
              refine ⟨?_, ?_, fun _ _ => ⟨hd, hcn⟩⟩
              · intro hf
                rw [hInn] at hf
                cases hf
              · intro _ hf
                exact absurd hf h123
          refine ⟨n, hn, Or.inr ?_⟩
          obtain ⟨e1, e2⟩ := measStep_ao_acl (measRun meas0 (V.take n)) hInn
          unfold arrNest
          rw [hsucc, h91, e1, e2]
          omega
        · exfalso
          refine hviol ?_
          unfold OKAt OKc
          refine ⟨?_, ?_, ?_⟩
          · intro hf
            rw [hInn] at hf
            cases hf
          · intro _ hf
            exact absurd hf h123
          · intro _ hf
            exact absurd hf h91
  · intro hex
    haveI : DecidablePred fun n => n < V.length ∧
        (p.maxDepth < objNest V (n + 1) ∨ p.maxDepth < arrNest V (n + 1)) :=
      fun n => by infer_instance
    have hspec := Nat.find_spec hex
    obtain ⟨hn, hviol⟩ := hspec
    have hmin : ∀ k, k < Nat.find hex → ¬(k < V.length ∧
        (p.maxDepth < objNest V (k + 1) ∨ p.maxDepth < arrNest V (k + 1))) :=
      fun k hk => Nat.find_min hex hk
    have hpre : ∀ k, k ≤ Nat.find hex →
        objNest V k ≤ p.maxDepth ∧ arrNest V k ≤ p.maxDepth := by
      intro k hk
      cases k with
      | zero => constructor <;> simp [objNest, arrNest, measRun, meas0]
      | succ k2 =>
        have hm := hmin k2 (by omega)
        push_neg at hm
        exact hm (by omega)
    obtain ⟨halive, hoc, hacl⟩ := rawValue_prefix V hV (Nat.find hex) hn
    have hsucc := measRun_take_succ meas0 V (Nat.find hex) hn
    have hokk : ∀ k, k < Nat.find hex → OKAt p meas0 V k := by
      intro k hk
      have hk' : k < V.length := by omega
      exact okAt_of_bounds p V hV k hk' (hstr k hk')
        (hpre (k + 1) (by omega)).1 (hpre (k + 1) (by omega)).2 (hcnt k hk')
    have hobj_n : objNest V (Nat.find hex) ≤ p.maxDepth :=
      (hpre (Nat.find hex) (Nat.le_refl _)).1
    have harr_n : arrNest V (Nat.find hex) ≤ p.maxDepth :=
      (hpre (Nat.find hex) (Nat.le_refl _)).2
    cases hviol with
    | inl hOex =>
      have hstepinc : (measRun meas0 (V.take (Nat.find hex))).oo -
          (measRun meas0 (V.take (Nat.find hex))).oc <
          (measStep (measRun meas0 (V.take (Nat.find hex)))
            (V.getD (Nat.find hex) 0)).oo -
          (measStep (measRun meas0 (V.take (Nat.find hex)))
            (V.getD (Nat.find hex) 0)).oc := by
        unfold objNest at hOex hobj_n
        rw [hsucc] at hOex
        omega
      obtain ⟨hInn, h123⟩ := measStep_nest_obj _ _ hstepinc
      obtain ⟨e1, e2⟩ :=
        measStep_oo_oc (measRun meas0 (V.take (Nat.find hex))) hInn
      have hBbad : p.maxDepth < (measRun meas0 (V.take (Nat.find hex))).oo -
          (measRun meas0 (V.take (Nat.find hex))).oc + 1 := by
        unfold objNest at hOex
        rw [hsucc, h123, e1, e2] at hOex
        omega
      have hnOK : ¬ OKAt p meas0 V (Nat.find hex) := by
        intro hOK
        unfold OKAt OKc at hOK
        obtain ⟨A, B, C⟩ := hOK
        have hB := B hInn h123
        omega
      have hres := scanFrom_first_viol p hp V scanInit meas0 0
        (Nat.find hex) couple_init (stInv_init p) hn halive hokk hnOK
      rw [show violErr p (measRun meas0 (V.take (Nat.find hex)))
          (V.getD (Nat.find hex) 0) = .objectDepthExceeded p.maxDepth from by
        unfold violErr
        rw [if_neg (by simp [hInn]), if_pos h123]] at hres
      exact Or.inl hres
    | inr hAex =>
      have hstepinc : (measRun meas0 (V.take (Nat.find hex))).ao -
          (measRun meas0 (V.take (Nat.find hex))).acl <
          (measStep (measRun meas0 (V.take (Nat.find hex)))
            (V.getD (Nat.find hex) 0)).ao -
          (measStep (measRun meas0 (V.take (Nat.find hex)))
            (V.getD (Nat.find hex) 0)).acl := by
        unfold arrNest at hAex harr_n
        rw [hsucc] at hAex
        omega
      obtain ⟨hInn, h91⟩ := measStep_nest_arr _ _ hstepinc
      obtain ⟨e1, e2⟩ :=
        measStep_ao_acl (measRun meas0 (V.take (Nat.find hex))) hInn
      have hCbad : p.maxDepth < (measRun meas0 (V.take (Nat.find hex))).ao -
          (measRun meas0 (V.take (Nat.find hex))).acl + 1 := by
        unfold arrNest at hAex
        rw [hsucc, h91, e1, e2] at hAex
        omega
      have h123 : ¬ V.getD (Nat.find hex) 0 = 123 := by
        rw [h91]
        omega
      have hnOK : ¬ OKAt p meas0 V (Nat.find hex) := by
        intro hOK
        unfold OKAt OKc at hOK
        obtain ⟨A, B, C⟩ := hOK
        have hC := C hInn h91
        omega
      have hres := scanFrom_first_viol p hp V scanInit meas0 0
        (Nat.find hex) couple_init (stInv_init p) hn halive hokk hnOK
      rw [show violErr p (measRun meas0 (V.take (Nat.find hex)))
          (V.getD (Nat.find hex) 0) = .arrayDepthExceeded p.maxDepth from by
        unfold violErr
        rw [if_neg (by simp [hInn]), if_neg h123, if_pos hCbad]] at hres
      exact Or.inr hres

/-- Value of the C4 witness: 21 nested objects, 42 bytes. -/
def c4V : List Nat := List.replicate 21 123 ++ List.replicate 21 125

/-- C4 witness: 21 nested `\x7b` exceed the per-type object bound of the
default policy (`max_depth` 20) and the scan fails with the object depth
error. -/
theorem depth_error_iff_witness :
    scanFrom defaultPolicy scanInit c4V 0 =
      .fail (.objectDepthExceeded 20) := by
  have h := (depth_error_iff defaultPolicy (by decide) c4V (by decide)
    (by decide) (by decide)).mpr ⟨20, by decide, Or.inl (by decide)⟩
  rcases h with h | h
  · exact h
  · exact absurd h (by decide)

/-- Policy of the C5 counterexample and witness: default limits with
`max_string_length` 2. -/
def c5pol : Policy := { defaultPolicy with maxStringLength := 2 }

/-- Input of C5: `\x7b"a":"xy"\x7d` — every string interior is at most 2
bytes. -/
def c5V : List Nat := [123, 34, 97, 34, 58, 34, 120, 121, 34, 125]

/-- C5 counterexample: with `max_string_length` 2 no string interior of
`\x7b"a":"xy"\x7d` is LONGER than 2 bytes (the interior measure `cur` never
exceeds 2), yet the scan fails with the string length error: the counter
also counts the closing quote, so the check fires already at interior
length EQUAL to the limit. -/
theorem c5_counterexample :
    (∀ n, n ≤ c5V.length → (measRun meas0 (c5V.take n)).cur ≤ 2) ∧
    scanFrom c5pol scanInit c5V 0 = .fail (.stringTooLong 2) := by
  decide

/-- C5 (amended): for a complete value within the depth and array-count
limits, the scan fails with the string length error if and only if at some
point inside a string the incremented counter exceeds the limit — i.e. some
string interior reaches AT LEAST `max_string_length` bytes.  The closing
quote is also counted, an off-by-one against the claim's strict "longer
than" (see `c5_counterexample`). -/
theorem string_error_iff (p : Policy) (hp : PolicyOK p) (V : List Nat)
    (hV : RawValue V)
    (hdep : ∀ n, n < V.length →
      objNest V (n + 1) ≤ p.maxDepth ∧ arrNest V (n + 1) ≤ p.maxDepth)
    (hcnt : ∀ n, n < V.length →
      (measRun meas0 (V.take n)).arrCnt + 1 ≤ p.maxArrayLength) :
    scanFrom p scanInit V 0 = .fail (.stringTooLong p.maxStringLength) ↔
    ∃ n, n < V.length ∧ (measRun meas0 (V.take n)).inStr = true ∧
      p.maxStringLength < (measRun meas0 (V.take n)).cur + 1 := by
  constructor
  · intro hsf
    obtain ⟨n, hn, hok, hviol, hee⟩ :=
      scanFrom_fail_viol p hp V scanInit meas0 0 _ couple_init
        (stInv_init p) hsf
    refine ⟨n, hn, ?_⟩
    cases hInn : (measRun meas0 (V.take n)).inStr with
    | false =>
      exfalso
      unfold violErr at hee
      rw [if_neg (by simp [hInn])] at hee
      split_ifs at hee <;> cases hee
    | true =>
      refine ⟨rfl, ?_⟩
      by_contra hb
      push_neg at hb
      refine hviol ?_
      unfold OKAt OKc
      refine ⟨fun _ => hb, ?_, ?_⟩ <;>
        (intro hf; rw [hInn] at hf; cases hf)
  · intro hex
    haveI : DecidablePred fun n => n < V.length ∧
        (measRun meas0 (V.take n)).inStr = true ∧
        p.maxStringLength < (measRun meas0 (V.take n)).cur + 1 :=
      fun n => by infer_instance
    obtain ⟨hn, hInn, hcur⟩ := Nat.find_spec hex
    have hmin : ∀ k, k < Nat.find hex → ¬(k < V.length ∧
        (measRun meas0 (V.take k)).inStr = true ∧
        p.maxStringLength < (measRun meas0 (V.take k)).cur + 1) :=
      fun k hk => Nat.find_min hex hk
    obtain ⟨halive, hoc, hacl⟩ := rawValue_prefix V hV (Nat.find hex) hn
    have hokk : ∀ k, k < Nat.find hex → OKAt p meas0 V k := by
      intro k hk
      have hk' : k < V.length := by omega
      refine okAt_of_bounds p V hV k hk' ?_ (hdep k hk').1 (hdep k hk').2
        (hcnt k hk')
      intro hInk
      have hm := hmin k hk
      push_neg at hm
      exact hm hk' hInk
    have hnOK : ¬ OKAt p meas0 V (Nat.find hex) := by
      intro hOK
      unfold OKAt OKc at hOK
      obtain ⟨A, B, C⟩ := hOK
      have hA := A hInn
      omega
    have hres := scanFrom_first_viol p hp V scanInit meas0 0 (Nat.find hex)
      couple_init (stInv_init p) hn halive hokk hnOK
    rw [show violErr p (measRun meas0 (V.take (Nat.find hex)))
        (V.getD (Nat.find hex) 0) = .stringTooLong p.maxStringLength from by
      unfold violErr
      rw [if_pos hInn]] at hres
    exact hres

/-- C5 witness: with `max_string_length` 2, the value `\x7b"a":"xy"\x7d`
reaches 2 interior bytes inside its second string, and the scan indeed
fails with the string length error. -/
theorem string_error_iff_witness :
    scanFrom c5pol scanInit c5V 0 = .fail (.stringTooLong 2) :=
  (string_error_iff c5pol (by decide) c5V (by decide) (by decide)
    (by decide)).mpr ⟨8, by decide, by decide, by decide⟩

/-- Parse-loop invariant for the root-object counter: it stays at most 1,
is 1 only while some bracket is open, and both depth counters respect the
policy bound. -/
def OLInv (p : Policy) (st : ScanState) : Prop :=
  st.ol ≤ 1 ∧ (st.ol = 1 → 1 ≤ st.od + st.ad) ∧ st.od ≤ p.maxDepth ∧
  st.ad ≤ p.maxDepth

/-- With `max_object_length ≥ 1` and `max_depth ≤ 254` one parse-loop step
never raises the object count error and preserves `OLInv`. -/
theorem stepO_no_objcount (p : Policy) (h1 : 1 ≤ p.maxObjectLength)
    (h2 : p.maxDepth ≤ 254) (st : ScanState) (hol : OLInv p st) (c : Nat) :
    (∀ lim, ¬ stepO p st c = .err (.objectCountExceeded lim)) ∧
    (∀ st', stepO p st c = .cont st' → OLInv p st') := by
  obtain ⟨ho1, ho2, ho3, ho4⟩ := hol
  unfold stepO
  by_cases hIn : st.inStr = true
  · rw [if_pos hIn]
    by_cases hsl : p.maxStringLength < (st.sl + 1) % 4294967296
    · rw [if_pos hsl]
      exact ⟨fun lim h => (by cases h), fun st' h => (by cases h)⟩
    · rw [if_neg hsl]
      constructor
      · intro lim h
        split_ifs at h <;> cases h
      · intro st' h
        split_ifs at h <;>
          (injection h with he; subst he; exact ⟨ho1, ho2, ho3, ho4⟩)
  · rw [if_neg hIn]
    by_cases h34 : c = 34
    · rw [if_pos h34]
      refine ⟨fun lim h => (by cases h), fun st' h => ?_⟩
      injection h with he
      subst he
      exact ⟨ho1, ho2, ho3, ho4⟩
    · rw [if_neg h34]
      by_cases h123 : c = 123
      · rw [if_pos h123]
        have hodm : (st.od + 1) % 256 = st.od + 1 :=
          Nat.mod_eq_of_lt (by omega)
        rw [hodm]
        by_cases hdep : p.maxDepth < st.od + 1
        · rw [if_pos hdep]
          exact ⟨fun lim h => (by cases h), fun st' h => (by cases h)⟩
        · rw [if_neg hdep]
          by_cases hbr : st.od + 1 = 1 ∧ st.ad = 0
          · rw [if_pos hbr]
            have hol0 : st.ol = 0 := by
              by_contra hx
              have hx1 : st.ol = 1 := by omega
              have := ho2 hx1
              omega
            have holm : (st.ol + 1) % 65536 = 1 := by rw [hol0]
            rw [holm, if_neg (by omega)]
            refine ⟨fun lim h => (by cases h), fun st' h => ?_⟩
            injection h with he
            subst he
            refine ⟨?_, ?_, ?_, ?_⟩ <;> simp <;> omega
          · rw [if_neg hbr]
            refine ⟨fun lim h => (by cases h), fun st' h => ?_⟩
            injection h with he
            subst he
            refine ⟨?_, ?_, ?_, ?_⟩ <;> simp <;> omega
      · rw [if_neg h123]
        by_cases h91 : c = 91
        · rw [if_pos h91]
          have hadm : (st.ad + 1) % 256 = st.ad + 1 :=
            Nat.mod_eq_of_lt (by omega)
          rw [hadm]
          by_cases hdep : p.maxDepth < st.ad + 1
          · rw [if_pos hdep]
            exact ⟨fun lim h => (by cases h), fun st' h => (by cases h)⟩
          · rw [if_neg hdep]
            by_cases hal : p.maxArrayLength < (st.al + 1) % 65536
            · rw [if_pos hal]
              exact ⟨fun lim h => (by cases h), fun st' h => (by cases h)⟩
            · rw [if_neg hal]
              refine ⟨fun lim h => (by cases h), fun st' h => ?_⟩
              injection h with he
              subst he
              refine ⟨?_, ?_, ?_, ?_⟩ <;> simp <;> omega
        · rw [if_neg h91]
          by_cases h125 : c = 125
          · rw [if_pos h125]
            by_cases hz : st.od = 0
            · rw [if_pos hz]
              exact ⟨fun lim h => (by cases h), fun st' h => (by cases h)⟩
            · rw [if_neg hz]
              by_cases hdone : st.od - 1 = 0 ∧ st.ad = 0
              · rw [if_pos hdone]
                exact ⟨fun lim h => (by cases h), fun st' h => (by cases h)⟩
              · rw [if_neg hdone]
                refine ⟨fun lim h => (by cases h), fun st' h => ?_⟩
                injection h with he
                subst he
                refine ⟨?_, ?_, ?_, ?_⟩ <;> simp <;> omega
          · rw [if_neg h125]
            by_cases h93 : c = 93
            · rw [if_pos h93]
              by_cases hz : st.ad = 0
              · rw [if_pos hz]
                exact ⟨fun lim h => (by cases h), fun st' h => (by cases h)⟩
              · rw [if_neg hz]
                by_cases hdone : st.od = 0 ∧ st.ad - 1 = 0
                · rw [if_pos hdone]
                  exact ⟨fun lim h => (by cases h), fun st' h => (by cases h)⟩
                · rw [if_neg hdone]
                  refine ⟨fun lim h => (by cases h), fun st' h => ?_⟩
                  injection h with he
                  subst he
                  refine ⟨?_, ?_, ?_, ?_⟩ <;> simp <;> omega
            · rw [if_neg h93]
              refine ⟨fun lim h => (by cases h), fun st' h => ?_⟩
              injection h with he
              subst he
              exact ⟨ho1, ho2, ho3, ho4⟩

/-- With `max_object_length ≥ 1` and `max_depth ≤ 254` the whole parse loop
never fails with the object count error. -/
theorem scanFrom_no_objcount (p : Policy) (h1 : 1 ≤ p.maxObjectLength)
    (h2 : p.maxDepth ≤ 254) (l : List Nat) :
    ∀ (st : ScanState) (i : Nat), OLInv p st →
    ∀ lim, ¬ scanFrom p st l i = .fail (.objectCountExceeded lim) := by
  induction l with
  | nil => intro st i _ lim h; cases h
  | cons c rest ih =>
    intro st i hol lim h
    rw [show scanFrom p st (c :: rest) i =
        (match stepO p st c with
         | .cont st' => scanFrom p st' rest (i + 1)
         | .done => .done i
         | .bad => .bad i
         | .err e0 => .fail e0) from rfl] at h
    obtain ⟨g1, g2⟩ := stepO_no_objcount p h1 h2 st hol c
    cases hso : stepO p st c with
    | cont st' =>
      rw [hso] at h
      dsimp only at h
      exact ih st' (i + 1) (g2 st' hso) lim h
    | done => rw [hso] at h; cases h
    | bad => rw [hso] at h; cases h
    | err e0 =>
      rw [hso] at h
      dsimp only at h
      injection h with he
      subst he
      exact g1 lim hso

/-- The start-of-value search fails only with an unmatched-bracket or
unexpected-character error. -/
theorem findStart_fail_shape (l : List Nat) :
    ∀ (pos : Nat) (e : LexErr), findStart l pos = .fail e →
      (∃ j, e = .unmatchedBracket j) ∨ ∃ c j, e = .unexpectedChar c j := by
  induction l with
  | nil => intro pos e h; cases h
  | cons c rest ih =>
    intro pos e h
    unfold findStart at h
    split_ifs at h with w1 w2 w3
    · injection h with he
      first
      | exact Or.inl ⟨pos, he.symm⟩
      | exact Or.inl ⟨pos, rfl⟩
    · exact ih (pos + 1) e h
    · injection h with he
      first
      | exact Or.inr ⟨c, pos, he.symm⟩
      | exact Or.inr ⟨c, pos, rfl⟩

/-- Policy of the C10 counterexample: `max_depth` 255 lets the uint8 depth
counter wrap; `max_object_length` is 1. -/
def c10pol : Policy :=
  { defaultPolicy with maxDepth := 255, maxObjectLength := 1 }

/-- Lexer of the C10 counterexample: 257 consecutive `\x7b` under
`c10pol`. -/
def c10lx : Lexer :=
  { buffer := List.replicate 257 123, bcap := 16384, cursor := 0,
    maxRead := 4096, policy := c10pol }

/-- Lexer of the C10 witness: `\x7b\x7d` under the default policy. -/
def c10wlx : Lexer :=
  { buffer := [123, 125], bcap := 16384, cursor := 0, maxRead := 4096,
    policy := defaultPolicy }

set_option maxRecDepth 4000 in
/-- C10 counterexample: with `max_depth` 255 the uint8 object-depth counter
wraps 255 → 0 after 256 consecutive `\x7b`; the 257th `\x7b` brings it back
to 1 with array depth 0, the root-object counter is incremented a second
time and `NextObject` DOES return the object count error although
`max_object_length` is at least 1. -/
theorem c10_counterexample :
    1 ≤ c10pol.maxObjectLength ∧
    nextObject c10lx = .fail (.objectCountExceeded 1) := by
  decide

/-- C10 (amended): whenever `max_object_length` is at least 1 AND
`max_depth` is at most 254 — so the uint8 depth counter cannot wrap; the
default policy satisfies both — `NextObject` never returns the object count
error: within one call the root-object counter reaches at most 1 before the
call returns at the close of that root value. -/
theorem nextObject_no_objectCount (lx : Lexer)
    (h1 : 1 ≤ lx.policy.maxObjectLength) (h2 : lx.policy.maxDepth ≤ 254)
    (lim : Nat) : ¬ nextObject lx = .fail (.objectCountExceeded lim) := by
  intro h
  unfold nextObject at h
  cases hf : findStart (lx.buffer.drop lx.cursor) lx.cursor with
  | fail e0 =>
    rw [hf] at h
    dsimp only at h
    injection h with he
    subst he
    rcases findStart_fail_shape (lx.buffer.drop lx.cursor) lx.cursor _ hf
      with ⟨j, hj⟩ | ⟨c, j, hj⟩ <;> cases hj
  | exhausted => rw [hf] at h; cases h
  | found s0 =>
    rw [hf] at h
    dsimp only at h
    cases hsc : scanFrom lx.policy scanInit (lx.buffer.drop s0) s0 with
    | more st => rw [hsc] at h; cases h
    | done stop => rw [hsc] at h; cases h
    | bad j => rw [hsc] at h; cases h
    | fail e0 =>
      rw [hsc] at h
      dsimp only at h
      injection h with he
      subst he
      exact scanFrom_no_objcount lx.policy h1 h2 (lx.buffer.drop s0)
        scanInit s0 (by refine ⟨?_, ?_, ?_, ?_⟩ <;> simp [scanInit]) lim hsc

/-- C10 witness: under the default policy `NextObject` cannot return the
object count error, here on the buffer `\x7b\x7d`. -/
theorem nextObject_no_objectCount_witness :
    ¬ nextObject c10wlx = .fail (.objectCountExceeded 9999) :=
  nextObject_no_objectCount c10wlx (by decide) (by decide) 9999
